import Mathlib

/-!
A shallow embedding of the `wasm-snip` pass (`src/lib.rs`) and proofs about it.

Functions, exports, imports and tables are modelled as identifier-carrying
records stored in lists; the walrus arena ids become plain naturals.  Function
bodies are modelled in walrus's stack IR style: a body is a sequence of
instructions, a call instruction takes its arguments from earlier instructions
in the sequence, and nested control constructs carry their own sequences.
The regular-expression engine is out of scope for the repository (used as a
black box), so it is a parameter: a compile test and a match test per pattern.
-/

namespace WasmSnip

/-- Walrus function identifiers, modelled as naturals. -/
abbrev FuncId := Nat

/-- Walrus type identifiers (interned signatures), modelled as naturals. -/
abbrev TypeId := Nat

/-- Walrus export identifiers. -/
abbrev ExportId := Nat

/-- Walrus import identifiers. -/
abbrev ImportId := Nat

/-- Walrus stack-IR instructions, restricted to what the pass inspects:
direct calls, indirect calls, the trap, opaque other instructions (anything
with side effects the pass does not look at), and nested blocks. -/
inductive Instr where
  | call (f : FuncId)
  | callIndirect (ty : TypeId)
  | unreachable
  | other (code : Nat)
  | block (body : List Instr)

/-- A walrus function: id, optional debug name, interned type, and an optional
body (`none` for imported functions, which own no body). -/
structure Func where
  id : FuncId
  name : Option String
  ty : TypeId
  body : Option (List Instr)

/-- What an export refers to: a function handle, or some other item kind. -/
inductive ExportItem where
  | function (f : FuncId)
  | otherItem (code : Nat)
deriving DecidableEq, Repr

/-- A walrus export entry. -/
structure Export where
  id : ExportId
  name : String
  item : ExportItem
deriving DecidableEq, Repr

/-- What an import provides: a function handle, or some other item kind. -/
inductive ImportKind where
  | function (f : FuncId)
  | otherItem (code : Nat)
deriving DecidableEq, Repr

/-- A walrus import entry. -/
structure Import where
  id : ImportId
  kind : ImportKind
deriving DecidableEq, Repr

/-- A function table: dense zero-indexed elements plus offset-based relative
segments, exactly the two shapes `snip_table_elements` walks. -/
structure FunctionTable where
  elements : List (Option FuncId)
  relativeElements : List (Nat × List FuncId)
deriving DecidableEq, Repr

/-- A table is either a function table or some other kind of table. -/
inductive TableKind where
  | function (ft : FunctionTable)
  | otherKind (code : Nat)
deriving DecidableEq, Repr

/-- A walrus table. -/
structure Table where
  id : Nat
  kind : TableKind
deriving DecidableEq, Repr

/-- The walrus module, restricted to the entities the pass touches.
`producers` models the build-provenance ("producers") custom section as a list
of processed-by entries; `nextFuncId` models the arena's fresh-id counter. -/
structure Module where
  funcs : List Func
  exports : List Export
  imports : List Import
  tables : List Table
  start : Option FuncId
  producers : List (String × String)
  nextFuncId : FuncId

/-- The error taxonomy of the pass (spec section 7); the implementation in
`src/lib.rs` only ever constructs the pattern-compile error. -/
inductive SnipError where
  | patternCompileError
  | unknownFunction (name : String)
deriving DecidableEq, Repr

/-- The regular-expression engine, an external collaborator used as a black
box: a compile test and a match test (pattern, text). -/
structure RegexEngine where
  compiles : String → Bool
  matchesP : String → String → Bool

/-- A compiled regex set is just its pattern list; matching asks the engine
pattern by pattern. -/
structure RegexSet where
  patterns : List String
deriving DecidableEq, Repr

/-- Modelled from the spec: `regex::RegexSet::new` compiles every pattern, and
fails if any one of them is malformed (black-box interface of section 1). -/
def RegexSet.new (eng : RegexEngine) (pats : List String) : Except SnipError RegexSet :=
  if pats.all eng.compiles then Except.ok ⟨pats⟩ else Except.error SnipError.patternCompileError

/-- Modelled from the spec: `RegexSet::is_match` reports whether any pattern
in the set matches the text. -/
def RegexSet.is_match (eng : RegexEngine) (rs : RegexSet) (s : String) : Bool :=
  rs.patterns.any (fun p => eng.matchesP p s)

/-- Mirror of `Options` in `src/lib.rs`. -/
structure Options where
  functions : List String
  patterns : List String
  kept_exports : List String
  kept_export_patterns : List String
  snip_rust_fmt_code : Bool
  snip_rust_panicking_code : Bool
  skip_producers_section : Bool
deriving DecidableEq, Repr

/-- The default options: every list empty, every flag off. -/
def Options.default : Options :=
  { functions := [], patterns := [], kept_exports := [], kept_export_patterns := [],
    snip_rust_fmt_code := false, snip_rust_panicking_code := false,
    skip_producers_section := false }

/-- The tool's version string (the concrete value is irrelevant to the pass). -/
def wasmSnipVersion : String := "0.4.0"

/-- Modelled from the spec: `walrus` `producers.add_processed_by` appends a
processed-by entry recording the tool and version (the spec only exposes the
flag suppressing this build-provenance metadata, section 6). -/
def addProcessedBy (m : Module) : Module :=
  { m with producers := m.producers ++ [("wasm-snip", wasmSnipVersion)] }

/-- The fixed pattern list appended by the `snip_rust_fmt_code` profile
(`build_regex_set`, `src/lib.rs` lines 189-201). -/
def fmtPatterns : List String :=
  [".*4core3fmt.*", ".*3std3fmt.*",
   ".*core\\.\\.fmt\\.\\..*", ".*std\\.\\.fmt\\.\\..*",
   ".*core::fmt::.*", ".*std::fmt::.*"]

/-- The fixed pattern list appended by the `snip_rust_panicking_code` profile
(`build_regex_set`, `src/lib.rs` lines 204-215). -/
def panickingPatterns : List String :=
  [".*4core9panicking.*", ".*3std9panicking.*",
   ".*core\\.\\.panicking\\.\\..*", ".*std\\.\\.panicking\\.\\..*",
   ".*core::panicking::.*", ".*std::panicking::.*"]

/-- The full pattern list `build_regex_set` hands to `RegexSet::new`:
the user patterns plus the patterns of each enabled profile. -/
def effectivePatterns (options : Options) : List String :=
  let ps := if options.snip_rust_fmt_code then options.patterns ++ fmtPatterns else options.patterns
  if options.snip_rust_panicking_code then ps ++ panickingPatterns else ps

/-- `build_regex_set` (`src/lib.rs` lines 187-219): append the enabled
profiles' patterns to the user patterns and compile them all. -/
def build_regex_set (eng : RegexEngine) (options : Options) : Except SnipError RegexSet :=
  RegexSet.new eng (effectivePatterns options)

/-- `find_functions_to_snip` (`src/lib.rs` lines 221-239): a function is
selected iff it has a debug name and that name is in the exact-name set or
matches the pattern set. -/
def find_functions_to_snip (eng : RegexEngine) (m : Module) (names : List String)
    (re_set : RegexSet) : List FuncId :=
  m.funcs.filterMap (fun f =>
    f.name.bind (fun n =>
      if names.contains n || re_set.is_match eng n then some f.id else none))

/-- `is_function` (`src/lib.rs` lines 241-246): keep only function exports. -/
def is_function (e : Export) : Option Export :=
  match e.item with
  | ExportItem.function _ => some e
  | _ => none

/-- `find_exports_to_delete` (`src/lib.rs` lines 247-264): every function
export whose name neither appears in the kept-export names nor matches the
kept-export patterns is marked for deletion. -/
def find_exports_to_delete (eng : RegexEngine) (m : Module) (names : List String)
    (re_set : RegexSet) : List ExportId :=
  (m.exports.filterMap is_function).filterMap (fun e =>
    if names.contains e.name || re_set.is_match eng e.name then none else some e.id)

/-- `delete_exports` (`src/lib.rs` lines 266-270): delete every export whose
id is in the given set. -/
def delete_exports (m : Module) (to_snip : List ExportId) : Module :=
  { m with exports := m.exports.filter (fun e => !(to_snip.contains e.id)) }

/-- `delete_functions_to_snip` (`src/lib.rs` lines 272-276): delete every
function whose id is in the snip set. -/
def delete_functions_to_snip (m : Module) (to_snip : List FuncId) : Module :=
  { m with funcs := m.funcs.filter (fun f => !(to_snip.contains f.id)) }

/-- `Replacer::should_snip_call` (`src/lib.rs` lines 287-294): a direct call
whose callee is in the snip set. -/
def should_snip_call (to_snip : List FuncId) (i : Instr) : Bool :=
  match i with
  | Instr.call f => to_snip.contains f
  | _ => false

mutual

/-- The `VisitorMut` of `replace_calls_with_unreachable` on one instruction:
a call to a snipped function becomes `unreachable`; every other instruction is
kept, recursing into nested sequences (`dfs_pre_order_mut`). -/
def rewriteInstr (to_snip : List FuncId) : Instr → Instr
  | Instr.call f => if to_snip.contains f then Instr.unreachable else Instr.call f
  | Instr.callIndirect ty => Instr.callIndirect ty
  | Instr.unreachable => Instr.unreachable
  | Instr.other c => Instr.other c
  | Instr.block b => Instr.block (rewriteSeq to_snip b)

/-- The visitor applied along an instruction sequence. -/
def rewriteSeq (to_snip : List FuncId) : List Instr → List Instr
  | [] => []
  | i :: rest => rewriteInstr to_snip i :: rewriteSeq to_snip rest

end

/-- The per-function step of `replace_calls_with_unreachable` (`src/lib.rs`
lines 305-313): functions in the snip set are skipped, imported functions have
no body, and local retained functions get their body rewritten. -/
def rewriteFunc (to_snip : List FuncId) (f : Func) : Func :=
  if to_snip.contains f.id then f
  else
    match f.body with
    | none => f
    | some b => { f with body := some (rewriteSeq to_snip b) }

/-- `replace_calls_with_unreachable` (`src/lib.rs` lines 278-314). -/
def replace_calls_with_unreachable (m : Module) (to_snip : List FuncId) : Module :=
  { m with funcs := m.funcs.map (rewriteFunc to_snip) }

/-- `unexport_snipped_functions` (`src/lib.rs` lines 316-329): delete every
export that references a function in the snip set. -/
def unexport_snipped_functions (m : Module) (to_snip : List FuncId) : Module :=
  { m with exports := m.exports.filter (fun e =>
      match e.item with
      | ExportItem.function f => !(to_snip.contains f)
      | _ => true) }

/-- `unimport_snipped_functions` (`src/lib.rs` lines 331-344): delete every import
entry that provides a function in the snip set. -/
def unimport_snipped_functions (m : Module) (to_snip : List FuncId) : Module :=
  { m with imports := m.imports.filter (fun i =>
      match i.kind with
      | ImportKind.function f => !(to_snip.contains f)
      | _ => true) }

/-- The mutable state threaded through `snip_table_elements`: the memoization
cache `unreachable_funcs`, the function arena, and the fresh-id counter. -/
structure PatchState where
  cache : List (TypeId × FuncId)
  funcs : List Func
  nextId : FuncId

/-- Association-list lookup for the stub cache. -/
def cacheLookup : List (TypeId × FuncId) → TypeId → Option FuncId
  | [], _ => none
  | (t, f) :: rest, ty => if t == ty then some f else cacheLookup rest ty

/-- `funcs.get(id).ty()`: the type of the function with the given id
(0 if absent; walrus would panic, and the pass only looks up live ids). -/
def funcTy (funcs : List Func) (fid : FuncId) : TypeId :=
  match funcs.find? (fun f => f.id == fid) with
  | some f => f.ty
  | none => 0

/-- `make_unreachable_func` (`src/lib.rs` lines 349-361) combined with the
cache insertion of `entry(ty).or_insert_with(..)`: synthesize a fresh function
of the given type whose body is a single `unreachable`, record it in the
cache, and append it to the arena. -/
def make_unreachable_func (ty : TypeId) (st : PatchState) : FuncId × PatchState :=
  let fid := st.nextId
  (fid,
   { cache := st.cache ++ [(ty, fid)],
     funcs := st.funcs ++ [{ id := fid, name := none, ty := ty, body := some [Instr.unreachable] }],
     nextId := fid + 1 })

/-- `unreachable_funcs.entry(ty).or_insert_with(..)`: return the cached stub
for the type, synthesizing it on first use. -/
def getStub (ty : TypeId) (st : PatchState) : FuncId × PatchState :=
  match cacheLookup st.cache ty with
  | some fid => (fid, st)
  | none => make_unreachable_func ty st

/-- Patch one table slot: a snipped callee is replaced by the stub for its
type; any other slot is left alone. -/
def patchElem (to_snip : List FuncId) (st : PatchState) (el : FuncId) : FuncId × PatchState :=
  if to_snip.contains el then getStub (funcTy st.funcs el) st else (el, st)

/-- Patch a dense element list (`ft.elements`, slots may be empty). -/
def patchOptElems (to_snip : List FuncId) (st : PatchState) :
    List (Option FuncId) → List (Option FuncId) × PatchState
  | [] => ([], st)
  | none :: rest =>
    let (rest2, st2) := patchOptElems to_snip st rest
    (none :: rest2, st2)
  | some el :: rest =>
    let (el2, st2) := patchElem to_snip st el
    let (rest2, st3) := patchOptElems to_snip st2 rest
    (some el2 :: rest2, st3)

/-- Patch one relative segment's element list. -/
def patchElems (to_snip : List FuncId) (st : PatchState) :
    List FuncId → List FuncId × PatchState
  | [] => ([], st)
  | el :: rest =>
    let (el2, st2) := patchElem to_snip st el
    let (rest2, st3) := patchElems to_snip st2 rest
    (el2 :: rest2, st3)

/-- Patch the relative segments (`ft.relative_elements`). -/
def patchRelElems (to_snip : List FuncId) (st : PatchState) :
    List (Nat × List FuncId) → List (Nat × List FuncId) × PatchState
  | [] => ([], st)
  | (off, els) :: rest =>
    let (els2, st2) := patchElems to_snip st els
    let (rest2, st3) := patchRelElems to_snip st2 rest
    ((off, els2) :: rest2, st3)

/-- Patch one table: only function tables are touched. -/
def patchTable (to_snip : List FuncId) (st : PatchState) (t : Table) : Table × PatchState :=
  match t.kind with
  | TableKind.function ft =>
    let (els2, st2) := patchOptElems to_snip st ft.elements
    let (rels2, st3) := patchRelElems to_snip st2 ft.relativeElements
    ({ t with kind := TableKind.function { elements := els2, relativeElements := rels2 } }, st3)
  | TableKind.otherKind c => ({ t with kind := TableKind.otherKind c }, st)

/-- Patch every table, threading the shared stub cache through all of them. -/
def patchTables (to_snip : List FuncId) (st : PatchState) :
    List Table → List Table × PatchState
  | [] => ([], st)
  | t :: rest =>
    let (t2, st2) := patchTable to_snip st t
    let (rest2, st3) := patchTables to_snip st2 rest
    (t2 :: rest2, st3)

/-- `snip_table_elements` (`src/lib.rs` lines 346-391). -/
def snip_table_elements (m : Module) (to_snip : List FuncId) : Module :=
  let st0 : PatchState := { cache := [], funcs := m.funcs, nextId := m.nextFuncId }
  let (ts, st) := patchTables to_snip st0 m.tables
  { m with tables := ts, funcs := st.funcs, nextFuncId := st.nextId }

mutual

/-- The direct-call targets of one instruction, nested blocks included. -/
def instrCalls : Instr → List FuncId
  | Instr.call f => [f]
  | Instr.callIndirect _ => []
  | Instr.unreachable => []
  | Instr.other _ => []
  | Instr.block b => seqCalls b

/-- The direct-call targets along an instruction sequence. -/
def seqCalls : List Instr → List FuncId
  | [] => []
  | i :: rest => instrCalls i ++ seqCalls rest

end

/-- The direct-call targets of a function's body (none for imports). -/
def funcCalls (f : Func) : List FuncId :=
  match f.body with
  | some b => seqCalls b
  | none => []

/-- The call successors of a function id in the arena. -/
def succs (funcs : List Func) (x : FuncId) : List FuncId :=
  match funcs.find? (fun f => f.id == x) with
  | some f => funcCalls f
  | none => []

/-- The function ids referenced by the exports. -/
def exportRoots (exps : List Export) : List FuncId :=
  exps.filterMap (fun e =>
    match e.item with
    | ExportItem.function f => some f
    | _ => none)

/-- The function ids referenced by the tables' slots. -/
def tableRoots (tables : List Table) : List FuncId :=
  tables.flatMap (fun t =>
    match t.kind with
    | TableKind.function ft =>
      ft.elements.filterMap id ++ ft.relativeElements.flatMap Prod.snd
    | TableKind.otherKind _ => [])

/-- Modelled from the spec (section 4.6): the reachability roots are every
surviving export's referenced item, every surviving table slot's function, and
the module's start function if any. -/
def roots (m : Module) : List FuncId :=
  exportRoots m.exports ++ tableRoots m.tables ++
    (match m.start with
     | some f => [f]
     | none => [])

/-- One round of the mark phase: a set together with all call successors of
its members. -/
def gcStep (funcs : List Func) (s : Finset Nat) : Finset Nat :=
  s ∪ s.biUnion (fun x => (succs funcs x).toFinset)

/-- Every call target appearing anywhere in the arena. -/
def allCalls (funcs : List Func) : Finset Nat :=
  funcs.foldr (fun f acc => (funcCalls f).toFinset ∪ acc) ∅

/-- A finite universe containing the roots and every call target; the mark
phase never leaves it. -/
def gcUniverse (m : Module) : Finset Nat :=
  (roots m).toFinset ∪ allCalls m.funcs

/-- The mark phase, iterated enough times to reach its fixed point. -/
def gcKeep (m : Module) : Finset Nat :=
  (gcStep m.funcs)^[(gcUniverse m).card] (roots m).toFinset

/-- Modelled from the spec (section 4.6): `walrus::passes::gc::run`, which is
library code outside this repository.  Mark from the roots through remaining
call instructions, then sweep: delete every unmarked function, and (keeping
the export/import-consistency property of section 8) every import entry whose
function was swept.  Exports, tables and the start function are the roots and
are not modified. -/
def gc_run (m : Module) : Module :=
  { m with
    funcs := m.funcs.filter (fun f => decide (f.id ∈ gcKeep m)),
    imports := m.imports.filter (fun i =>
      match i.kind with
      | ImportKind.function f => decide (f ∈ gcKeep m)
      | _ => true) }

/-- `snip` (`src/lib.rs` lines 161-185).  The module is mutated in place in
Rust; here the (possibly partially mutated) module is returned next to the
optional error, so that early-error states are observable. -/
def snip (eng : RegexEngine) (m : Module) (options : Options) : Module × Option SnipError :=
  let m1 := if !options.skip_producers_section then addProcessedBy m else m
  match RegexSet.new eng options.kept_export_patterns with
  | Except.error e => (m1, some e)
  | Except.ok re_kept_set =>
    let export_names := options.kept_exports
    let exports_to_delete := find_exports_to_delete eng m1 export_names re_kept_set
    let names := options.functions
    match build_regex_set eng options with
    | Except.error e => (m1, some e)
    | Except.ok re_set =>
      let to_snip := find_functions_to_snip eng m1 names re_set
      let m2 := delete_exports m1 exports_to_delete
      let m3 := replace_calls_with_unreachable m2 to_snip
      let m4 := unexport_snipped_functions m3 to_snip
      let m5 := unimport_snipped_functions m4 to_snip
      let m6 := snip_table_elements m5 to_snip
      let m7 := delete_functions_to_snip m6 to_snip
      (gc_run m7, none)

/-- The function selection `snip` would make on a module with given options
(empty when the patterns do not compile, in which case `snip` errors out
before selecting). -/
def snipSelection (eng : RegexEngine) (m : Module) (options : Options) : List FuncId :=
  match build_regex_set eng options with
  | Except.error _ => []
  | Except.ok re_set => find_functions_to_snip eng m options.functions re_set

/-- Observable events of a body's execution: a side effect of an opaque
instruction, a direct call, an indirect call, or the trap. -/
inductive Ev where
  | eff (code : Nat)
  | calledFn (f : FuncId)
  | calledInd (ty : TypeId)
  | trap
deriving DecidableEq, Repr

mutual

/-- Trace semantics of one instruction: the events it emits and whether it
traps.  A trap unconditionally halts the executing function (spec glossary),
so a trapping instruction ends the sequence. -/
def runInstr : Instr → List Ev × Bool
  | Instr.call f => ([Ev.calledFn f], false)
  | Instr.callIndirect ty => ([Ev.calledInd ty], false)
  | Instr.unreachable => ([Ev.trap], true)
  | Instr.other c => ([Ev.eff c], false)
  | Instr.block b => runSeq b

/-- Trace semantics of an instruction sequence, stopping at the first trap. -/
def runSeq : List Instr → List Ev × Bool
  | [] => ([], false)
  | i :: rest =>
    let r := runInstr i
    if r.2 then r else (r.1 ++ (runSeq rest).1, (runSeq rest).2)

end

/-- The parallel selection of `find_functions_to_snip` as rayon schedules it:
the arena is traversed in some order `σ` (a permutation of the function list)
and the per-function matches are collected. -/
def find_functions_to_snip_par (eng : RegexEngine) (σ : List Func) (names : List String)
    (re_set : RegexSet) : List FuncId :=
  σ.filterMap (fun f =>
    f.name.bind (fun n =>
      if names.contains n || re_set.is_match eng n then some f.id else none))

/-- Deletion of a single export by id (one step of the `delete_exports`
loop over its `HashSet`). -/
def deleteExportOne (m : Module) (i : ExportId) : Module :=
  { m with exports := m.exports.filter (fun e => !(e.id == i)) }

/-- Deletion of a single function by id (one step of the
`delete_functions_to_snip` loop over its `HashSet`). -/
def deleteFuncOne (m : Module) (x : FuncId) : Module :=
  { m with funcs := m.funcs.filter (fun f => !(f.id == x)) }

/-- `delete_exports` as the iteration order of its `HashSet` actually runs
it: one deletion per element, in the set's iteration order. -/
def delete_exports_sched (m : Module) (order : List ExportId) : Module :=
  order.foldl deleteExportOne m

/-- `delete_functions_to_snip` as the iteration order of its `HashSet`
actually runs it. -/
def delete_functions_sched (m : Module) (order : List FuncId) : Module :=
  order.foldl deleteFuncOne m

/-- `snip` with its internal nondeterminism made explicit: `σ` is the order
in which the parallel selection traverses the arena, `oE` and `oF` are the
hash-set iteration orders used by the export and function deletions. -/
def snipSched (eng : RegexEngine) (m : Module) (options : Options)
    (σ : List Func) (oE : List ExportId) (oF : List FuncId) : Module × Option SnipError :=
  let m1 := if !options.skip_producers_section then addProcessedBy m else m
  match RegexSet.new eng options.kept_export_patterns with
  | Except.error e => (m1, some e)
  | Except.ok _re_kept_set =>
    match build_regex_set eng options with
    | Except.error e => (m1, some e)
    | Except.ok re_set =>
      let to_snip := find_functions_to_snip_par eng σ options.functions re_set
      let m2 := delete_exports_sched m1 oE
      let m3 := replace_calls_with_unreachable m2 to_snip
      let m4 := unexport_snipped_functions m3 to_snip
      let m5 := unimport_snipped_functions m4 to_snip
      let m6 := snip_table_elements m5 to_snip
      let m7 := delete_functions_sched m6 oF
      (gc_run m7, none)

/-- Whether a function with the given id exists in the arena. -/
def funcExists (funcs : List Func) (x : FuncId) : Bool :=
  funcs.any (fun f => f.id == x)

/-- Every function export references an existing function. -/
def exportRefsLive (m : Module) : Bool :=
  m.exports.all (fun e =>
    match e.item with
    | ExportItem.function f => funcExists m.funcs f
    | _ => true)

/-- Every function import references an existing function. -/
def importRefsLive (m : Module) : Bool :=
  m.imports.all (fun i =>
    match i.kind with
    | ImportKind.function f => funcExists m.funcs f
    | _ => true)

/-- Arena well-formedness: every function id is below the fresh-id counter,
so synthesized stubs never collide with (or fall into) existing ids. -/
def idsBounded (m : Module) : Bool :=
  m.funcs.all (fun f => decide (f.id < m.nextFuncId))

/-- The keys (types) of the stub cache. -/
def cacheKeys (c : List (TypeId × FuncId)) : List TypeId :=
  c.map Prod.fst

/-- The cache only ever grows at the tail. -/
def cachePrefix (c c' : List (TypeId × FuncId)) : Prop :=
  ∃ d, c' = c ++ d

/-- The stub function a cache entry stands for: fresh id, no name, the
cached type, and a body of exactly one trap. -/
def mkStubFunc (pr : TypeId × FuncId) : Func :=
  { id := pr.2, name := none, ty := pr.1, body := some [Instr.unreachable] }

/-- The arena holds a stub of the given type under the given id. -/
def IsStubFor (funcs : List Func) (ty : TypeId) (fid : FuncId) : Prop :=
  ∃ g ∈ funcs, g.id = fid ∧ g.ty = ty ∧ g.name = none ∧ g.body = some [Instr.unreachable]

/-- What the table patcher does to one slot, phrased against the final stub
cache: a snipped callee goes to the stub cached for its type, any other slot
is untouched. -/
def patchSpecSlot (c : List (TypeId × FuncId)) (orig : List Func) (to_snip : List FuncId)
    (y : FuncId) : FuncId :=
  if to_snip.contains y then (cacheLookup c (funcTy orig y)).getD y else y

/-- Monotone facts about the patch state: the arena only grows by fresh
unnamed stubs, the fresh-id counter only increases, the cache only grows. -/
structure PatchExt (st st' : PatchState) : Prop where
  funcsExt : ∃ ext, st'.funcs = st.funcs ++ ext ∧ ∀ g ∈ ext, g.name = none ∧ st.nextId ≤ g.id
  nextLe : st.nextId ≤ st'.nextId
  cacheExt : ∃ d, st'.cache = st.cache ++ d

/-- Invariant of the table patcher's state: the arena is the original arena
plus exactly one stub per cache entry, cache keys (types) are distinct, and
every cached stub id is fresh: at or above the original fresh-id counter and
below the current one. -/
def PatchInv (orig : List Func) (next0 : Nat) (st : PatchState) : Prop :=
  st.funcs = orig ++ st.cache.map mkStubFunc ∧
  (cacheKeys st.cache).Nodup ∧
  (∀ pr ∈ st.cache, next0 ≤ pr.2 ∧ pr.2 < st.nextId) ∧
  next0 ≤ st.nextId

/-- Apply a slot transformation to every slot of a table (function tables
only, dense and relative alike). -/
def mapTableSlots (g : FuncId → FuncId) (t : Table) : Table :=
  match t.kind with
  | TableKind.function ft =>
    { t with
      kind := TableKind.function
        ({ elements := ft.elements.map (Option.map g),
           relativeElements := ft.relativeElements.map (fun pr => (pr.1, pr.2.map g)) }) }
  | TableKind.otherKind c => { t with kind := TableKind.otherKind c }

/-- A regex engine for concrete runs: any pattern other than a lone `(`
compiles, and a pattern matches exactly the texts it equals. -/
def engLit : RegexEngine :=
  { compiles := fun p => p != "(", matchesP := fun p s => p == s }

/-- Concrete module for the C1 run: one function, exported as `main`. -/
def mC1 : Module :=
  { funcs := [{ id := 0, name := some "main", ty := 0, body := some [Instr.other 0] }],
    exports := [{ id := 0, name := "main", item := ExportItem.function 0 }],
    imports := [], tables := [], start := none, producers := [], nextFuncId := 1 }

/-- Concrete module for the C2 run: one function named `foo`. -/
def mC2 : Module :=
  { funcs := [{ id := 0, name := some "foo", ty := 0, body := some [Instr.other 0] }],
    exports := [], imports := [], tables := [], start := none, producers := [],
    nextFuncId := 1 }

/-- Options for the C2 run: request the absent name `bar`. -/
def optsC2 : Options :=
  { Options.default with functions := ["bar"] }

/-- Options for the C3 run: one malformed pattern. -/
def optsC3 : Options :=
  { Options.default with patterns := ["("] }

/-- Concrete module for the C5/C7 witnesses: two snipped functions sharing a
type, referenced from dense and relative table slots. -/
def mC5 : Module :=
  { funcs := [{ id := 0, name := some "a", ty := 7, body := some [Instr.other 0] },
              { id := 1, name := some "b", ty := 7, body := some [Instr.other 1] },
              { id := 2, name := some "c", ty := 9, body := some [Instr.other 2] }],
    exports := [], imports := [],
    tables := [{ id := 0, kind := TableKind.function
                  { elements := [some 0, none, some 2],
                    relativeElements := [(4, [1, 0])] } }],
    start := none, producers := [], nextFuncId := 3 }

/-- Concrete module for the C6 witness. -/
def mC6 : Module :=
  { funcs := [{ id := 0, name := some "foo", ty := 0, body := some [] }],
    exports := [], imports := [], tables := [], start := none, producers := [],
    nextFuncId := 1 }

/-- Concrete module for the C8 witness: an exported function that calls a
snipped function, plus an imported function. -/
def mC8 : Module :=
  { funcs := [{ id := 0, name := some "main", ty := 0, body := some [Instr.call 1, Instr.call 2] },
              { id := 1, name := some "doomed", ty := 0, body := some [Instr.other 1] },
              { id := 2, name := some "imp", ty := 0, body := none }],
    exports := [{ id := 0, name := "main", item := ExportItem.function 0 }],
    imports := [{ id := 0, kind := ImportKind.function 2 }],
    tables := [], start := none, producers := [], nextFuncId := 3 }

/-- Options for the C8 witness: snip `doomed` by exact name, keep `main`
exported through the keep-list. -/
def optsC8 : Options :=
  { Options.default with functions := ["doomed"], kept_exports := ["main"] }

/-- Concrete module for the C9 counterexample: the empty module. -/
def mC9 : Module :=
  { funcs := [], exports := [], imports := [], tables := [], start := none,
    producers := [], nextFuncId := 0 }

/-- Options for the C9 witness run: a target name, a keep-list, and the
producers entry suppressed. -/
def optsC9 : Options :=
  { Options.default with
    functions := ["doomed"], kept_exports := ["main"], skip_producers_section := true }

/-- Concrete module for the C9 witness. -/
def mC9w : Module :=
  { funcs := [{ id := 0, name := some "main", ty := 0, body := some [Instr.call 1] },
              { id := 1, name := some "doomed", ty := 0, body := some [Instr.other 1] }],
    exports := [{ id := 0, name := "main", item := ExportItem.function 0 }],
    imports := [], tables := [], start := none, producers := [], nextFuncId := 2 }

/-- Concrete module for the C10 witness: two snipped functions and two
deleted exports, so every schedule has a nontrivial permutation. -/
def mC10 : Module :=
  { funcs := [{ id := 0, name := some "f", ty := 0, body := some [Instr.other 0] },
              { id := 1, name := some "g", ty := 0, body := some [Instr.other 1] },
              { id := 2, name := some "keep", ty := 0, body := some [Instr.other 2] }],
    exports := [{ id := 0, name := "e0", item := ExportItem.function 2 },
                { id := 1, name := "e1", item := ExportItem.function 2 },
                { id := 2, name := "kept", item := ExportItem.function 2 }],
    imports := [], tables := [], start := none, producers := [], nextFuncId := 3 }

/-- Options for the C10 witness. -/
def optsC10 : Options :=
  { Options.default with functions := ["f", "g"], kept_exports := ["kept"] }

/-- The module after `snip`'s producers step. -/
def snipM1 (m : Module) (options : Options) : Module :=
  if !options.skip_producers_section then addProcessedBy m else m

/-- The export-deletion set `snip` computes once both regex sets compile
(the successfully compiled set is its own pattern list). -/
def snipExportsToDelete (eng : RegexEngine) (m1 : Module) (options : Options) : List ExportId :=
  find_exports_to_delete eng m1 options.kept_exports ⟨options.kept_export_patterns⟩

/-- The snip set `snip` computes once both regex sets compile. -/
def snipToSnip (eng : RegexEngine) (m1 : Module) (options : Options) : List FuncId :=
  find_functions_to_snip eng m1 options.functions ⟨effectivePatterns options⟩

/-- The module after `snip`'s call-site rewrite, export/import pruning and
table patching, before the reachability collection. -/
def snipM7 (eng : RegexEngine) (m1 : Module) (options : Options) : Module :=
  delete_functions_to_snip
    (snip_table_elements
      (unimport_snipped_functions
        (unexport_snipped_functions
          (replace_calls_with_unreachable
            (delete_exports m1 (snipExportsToDelete eng m1 options))
            (snipToSnip eng m1 options))
          (snipToSnip eng m1 options))
        (snipToSnip eng m1 options))
      (snipToSnip eng m1 options))
    (snipToSnip eng m1 options)

/-- The mutation pipeline of `snip` on the success path. -/
def snipCore (eng : RegexEngine) (m1 : Module) (options : Options) : Module :=
  gc_run (snipM7 eng m1 options)

end WasmSnip

/-! ## Basic lemmas about the call-site rewriter's traces -/

namespace WasmSnip

theorem rewriteSeq_append (s : List FuncId) (a b : List Instr) :
    rewriteSeq s (a ++ b) = rewriteSeq s a ++ rewriteSeq s b := by
  induction a with
  | nil => rfl
  | cons i r ih => simp [rewriteSeq, ih]

theorem runSeq_append (a b : List Instr) :
    runSeq (a ++ b) =
      if (runSeq a).2 then runSeq a
      else ((runSeq a).1 ++ (runSeq b).1, (runSeq b).2) := by
  induction a with
  | nil => simp [runSeq]
  | cons i r ih =>
    simp only [List.cons_append, runSeq]
    by_cases h : (runInstr i).2
    · simp [h]
    · by_cases h2 : (runSeq r).2 <;> simp [h, h2, ih, List.append_assoc]

/-- C4: in a retained function, a call to a snipped callee becomes a trap
while the argument-evaluating instructions before it keep their events in
order; calls to non-snipped callees are untouched; snipped functions' own
bodies are not rewritten. -/
theorem claim_C4_call_site_rewrite (s : List FuncId) :
    (∀ g, s.contains g = false → rewriteInstr s (Instr.call g) = Instr.call g) ∧
    (∀ f, s.contains f.id = true → rewriteFunc s f = f) ∧
    (∀ pre post f, s.contains f = true → rewriteSeq s pre = pre →
      (runSeq pre).2 = false →
      runSeq (rewriteSeq s (pre ++ Instr.call f :: post)) =
        ((runSeq pre).1 ++ [Ev.trap], true)) := by
  refine ⟨?_, ?_, ?_⟩
  · intro g hg
    have h0 : rewriteInstr s (Instr.call g) =
        if s.contains g then Instr.unreachable else Instr.call g := rfl
    have hgp : ¬(s.contains g = true) := by
      rw [hg]
      exact Bool.false_ne_true
    rw [h0, if_neg hgp]
  · intro f hf
    unfold rewriteFunc
    rw [if_pos hf]
  · intro pre post f hf hpre hnt
    have h2 : rewriteInstr s (Instr.call f) = Instr.unreachable := by
      have h0 : rewriteInstr s (Instr.call f) =
          if s.contains f then Instr.unreachable else Instr.call f := rfl
      rw [h0, if_pos hf]
    have h1 : rewriteSeq s (pre ++ Instr.call f :: post) =
        pre ++ Instr.unreachable :: rewriteSeq s post := by
      rw [rewriteSeq_append, hpre]
      have h3 : rewriteSeq s (Instr.call f :: post) =
          rewriteInstr s (Instr.call f) :: rewriteSeq s post := rfl
      rw [h3, h2]
    rw [h1, runSeq_append, hnt]
    simp [runSeq, runInstr]

theorem claim_C4_call_site_rewrite_witness :
    rewriteInstr [5] (Instr.call 3) = Instr.call 3 ∧
    rewriteFunc [5] { id := 5, name := none, ty := 0, body := some [Instr.call 5] } =
      { id := 5, name := none, ty := 0, body := some [Instr.call 5] } ∧
    runSeq (rewriteSeq [5] ([Instr.other 0, Instr.other 1] ++ Instr.call 5 :: [Instr.other 2])) =
      ([Ev.eff 0, Ev.eff 1, Ev.trap], true) := by
  obtain ⟨h1, h2, h3⟩ := claim_C4_call_site_rewrite [5]
  refine ⟨h1 3 (by decide), h2 _ (by decide), ?_⟩
  have h := h3 [Instr.other 0, Instr.other 1] [Instr.other 2] 5 (by decide) (by rfl) (by rfl)
  exact h.trans (by rfl)

/-! ## Selection (C6, C2) -/

/-- C6: a function is selected for snipping iff it has a debug name and that
name is in the exact-name set or matches the pattern set; unnamed functions
are never selected, and nothing else about the function (callers, locality)
is consulted. -/
theorem claim_C6_selection (eng : RegexEngine) (m : Module) (names : List String)
    (rs : RegexSet) (f : Func) (hf : f ∈ m.funcs)
    (hnd : (m.funcs.map Func.id).Nodup) :
    f.id ∈ find_functions_to_snip eng m names rs ↔
      ∃ n, f.name = some n ∧ (names.contains n || rs.is_match eng n) = true := by
  unfold find_functions_to_snip
  rw [List.mem_filterMap]
  constructor
  · rintro ⟨g, hg, hsome⟩
    obtain ⟨n, hn, hif⟩ := Option.bind_eq_some.mp hsome
    by_cases hc : (names.contains n || rs.is_match eng n) = true
    · rw [if_pos hc] at hif
      have hgid : g.id = f.id := Option.some.inj hif
      have hgf : g = f := List.inj_on_of_nodup_map hnd hg hf hgid
      exact ⟨n, by rw [← hgf]; exact hn, hc⟩
    · rw [if_neg hc] at hif
      cases hif
  · rintro ⟨n, hn, hc⟩
    refine ⟨f, hf, ?_⟩
    rw [hn]
    simp only [Option.some_bind]
    rw [if_pos hc]

theorem claim_C6_selection_witness :
    0 ∈ find_functions_to_snip engLit mC6 ["foo"] ⟨[]⟩ ↔
      ∃ n, (some "foo" : Option String) = some n ∧
        ((["foo"] : List String).contains n || RegexSet.is_match engLit ⟨[]⟩ n) = true := by
  have h := claim_C6_selection engLit mC6 ["foo"] ⟨[]⟩
    { id := 0, name := some "foo", ty := 0, body := some [] }
    (List.mem_singleton.mpr rfl) (by decide)
  exact h

/-- C2 (amended): a requested name that is not the debug name of any function
is silently ignored: it contributes nothing to the selection, and `snip`
never reports `UnknownFunction` (the only error it ever returns is the
pattern-compile error). -/
theorem claim_C2_absent_names_ignored :
    (∀ eng m names rs bad, (∀ f ∈ (m : Module).funcs, f.name ≠ some bad) →
      find_functions_to_snip eng m (bad :: names) rs =
        find_functions_to_snip eng m names rs) ∧
    (∀ eng m opts e, (snip eng m opts).2 = some e → e = SnipError.patternCompileError) := by
  constructor
  · intro eng m names rs bad hbad
    unfold find_functions_to_snip
    apply List.filterMap_congr
    intro f hf
    cases hn : f.name with
    | none => rfl
    | some n =>
      have hnb : (n == bad) = false := by
        cases h : n == bad
        · rfl
        · exact absurd (by rw [hn, eq_of_beq h]) (hbad f hf)
      simp only [Option.some_bind]
      have hcc : (bad :: names).contains n = names.contains n := by
        rw [List.contains_cons, hnb, Bool.false_or]
      rw [hcc]
  · intro eng m opts e h
    unfold snip RegexSet.new build_regex_set at h
    by_cases h1 : opts.kept_export_patterns.all eng.compiles <;>
      by_cases h2 : (effectivePatterns opts).all eng.compiles <;>
      simp [h1, h2, RegexSet.new] at h <;>
      exact h.symm

end WasmSnip

namespace WasmSnip

theorem claim_C2_absent_names_ignored_witness :
    find_functions_to_snip engLit mC2 ["bar"] ⟨[]⟩ =
      find_functions_to_snip engLit mC2 [] ⟨[]⟩ ∧
    SnipError.patternCompileError = SnipError.patternCompileError := by
  obtain ⟨h1, h2⟩ := claim_C2_absent_names_ignored
  constructor
  · refine h1 engLit mC2 [] ⟨[]⟩ "bar" ?_
    intro f hf
    have hf1 : f = { id := 0, name := some "foo", ty := 0, body := some [Instr.other 0] } :=
      List.mem_singleton.mp hf
    rw [hf1]
    decide
  · exact h2 engLit mC9 optsC3 SnipError.patternCompileError (by decide)

/-- C2 counterexample: requesting the absent name `bar` does not produce the
`UnknownFunction` error the claim demands: `snip` succeeds, and the module is
not left unchanged either (the producers entry was appended). -/
theorem claim_C2_cex_silent_success :
    (snip engLit mC2 optsC2).2 = none ∧
    (snip engLit mC2 optsC2).1.producers ≠ mC2.producers := by
  constructor <;> decide

/-- C3 (amended): if any supplied regex fails to compile, `snip` returns the
pattern-compile error and no export, import, function or table slot has been
touched; but the producers (build-provenance) entry has already been added
unless `skip_producers_section` is set. -/
theorem claim_C3_abort_before_mutation (eng : RegexEngine) (m : Module) (opts : Options)
    (h : opts.kept_export_patterns.all eng.compiles = false ∨
         (effectivePatterns opts).all eng.compiles = false) :
    (snip eng m opts).2 = some SnipError.patternCompileError ∧
    (snip eng m opts).1.funcs = m.funcs ∧
    (snip eng m opts).1.exports = m.exports ∧
    (snip eng m opts).1.imports = m.imports ∧
    (snip eng m opts).1.tables = m.tables ∧
    (snip eng m opts).1.start = m.start ∧
    (snip eng m opts).1.producers =
      (if opts.skip_producers_section = true then m.producers
       else m.producers ++ [("wasm-snip", wasmSnipVersion)]) := by
  have hsnip : snip eng m opts =
      (if !opts.skip_producers_section then addProcessedBy m else m,
       some SnipError.patternCompileError) := by
    unfold snip RegexSet.new build_regex_set
    by_cases h1 : opts.kept_export_patterns.all eng.compiles
    · have h2 : (effectivePatterns opts).all eng.compiles = false := by
        rcases h with h | h
        · rw [h1] at h
          cases h
        · exact h
      simp [h1, h2, RegexSet.new]
    · simp [h1]
  rw [hsnip]
  refine ⟨rfl, ?_, ?_, ?_, ?_, ?_, ?_⟩ <;>
    cases hsk : opts.skip_producers_section <;>
    simp [addProcessedBy, hsk]

theorem claim_C3_abort_before_mutation_witness :
    (snip engLit mC9 optsC3).2 = some SnipError.patternCompileError ∧
    (snip engLit mC9 optsC3).1.funcs = mC9.funcs ∧
    (snip engLit mC9 optsC3).1.exports = mC9.exports ∧
    (snip engLit mC9 optsC3).1.imports = mC9.imports ∧
    (snip engLit mC9 optsC3).1.tables = mC9.tables ∧
    (snip engLit mC9 optsC3).1.start = mC9.start ∧
    (snip engLit mC9 optsC3).1.producers =
      (if optsC3.skip_producers_section = true then mC9.producers
       else mC9.producers ++ [("wasm-snip", wasmSnipVersion)]) :=
  claim_C3_abort_before_mutation engLit mC9 optsC3 (Or.inr (by decide))

/-- C3 counterexample: on a malformed pattern the module is not returned
completely unmodified: the producers (build-provenance) entry was added
before pattern compilation was attempted. -/
theorem claim_C3_cex_producers_already_added :
    (snip engLit mC9 optsC3).2 = some SnipError.patternCompileError ∧
    (snip engLit mC9 optsC3).1.producers ≠ mC9.producers := by
  constructor <;> decide

/-- C1: the claim fails on the code.  With an empty keep-list (both
`kept_exports` and `kept_export_patterns` empty) the export-retention
mechanism deletes every function export rather than none: on a module whose
sole export references a function outside the (empty) snip set, a successful
`snip` with default options removes that export, and the reachability
collection then removes the now-unrooted function as well.  The empty
`RegexSet` matches nothing and the empty name set contains nothing, so
`find_exports_to_delete` marks every function export. -/
theorem claim_C1_empty_keep_list_deletes_all :
    (snip engLit mC1 Options.default).2 = none ∧
    (snip engLit mC1 Options.default).1.exports = [] ∧
    (snip engLit mC1 Options.default).1.funcs.length = 0 ∧
    find_exports_to_delete engLit (addProcessedBy mC1) [] ⟨[]⟩ = [0] := by
  refine ⟨?_, ?_, ?_, ?_⟩ <;> decide

end WasmSnip

/-! ## Reachability-collection theory: the mark phase reaches a fixed point -/

namespace WasmSnip

theorem gcStep_infl (funcs : List Func) (s : Finset Nat) : s ⊆ gcStep funcs s :=
  Finset.subset_union_left

theorem funcCalls_subset_allCalls (funcs : List Func) (f : Func) (hf : f ∈ funcs) :
    (funcCalls f).toFinset ⊆ allCalls funcs := by
  induction funcs with
  | nil => cases hf
  | cons g rest ih =>
    rcases List.mem_cons.mp hf with h | h
    · subst h
      exact Finset.subset_union_left
    · exact (ih h).trans Finset.subset_union_right

theorem succs_subset_allCalls (funcs : List Func) (x : Nat) :
    (succs funcs x).toFinset ⊆ allCalls funcs := by
  unfold succs
  cases h : funcs.find? (fun f => f.id == x) with
  | none => simp
  | some f => exact funcCalls_subset_allCalls funcs f (List.mem_of_find?_eq_some h)

theorem gcStep_subset_universe (m : Module) {s : Finset Nat} (hs : s ⊆ gcUniverse m) :
    gcStep m.funcs s ⊆ gcUniverse m := by
  unfold gcStep
  refine Finset.union_subset hs (Finset.biUnion_subset.mpr ?_)
  intro x _
  exact (succs_subset_allCalls m.funcs x).trans Finset.subset_union_right

theorem iterate_subset_universe (m : Module) (n : Nat) :
    (gcStep m.funcs)^[n] (roots m).toFinset ⊆ gcUniverse m := by
  induction n with
  | zero => exact Finset.subset_union_left
  | succ k ih =>
    rw [Function.iterate_succ_apply']
    exact gcStep_subset_universe m ih

theorem iterate_eq_of_fix {α : Type} (f : α → α) (s : α) (k : Nat)
    (h : f (f^[k] s) = f^[k] s) : ∀ j, f^[k + j] s = f^[k] s := by
  intro j
  induction j with
  | zero => rfl
  | succ i ih =>
    rw [Nat.add_succ, Function.iterate_succ_apply', ih]
    exact h

theorem gcKeep_fixed (m : Module) : gcStep m.funcs (gcKeep m) = gcKeep m := by
  unfold gcKeep
  by_contra hne
  have hstrict : ∀ k, k ≤ (gcUniverse m).card →
      (gcStep m.funcs)^[k] (roots m).toFinset ≠ (gcStep m.funcs)^[k+1] (roots m).toFinset := by
    intro k hk heq
    have hfix : gcStep m.funcs ((gcStep m.funcs)^[k] (roots m).toFinset) =
        (gcStep m.funcs)^[k] (roots m).toFinset := by
      have h' := heq.symm
      rw [Function.iterate_succ_apply'] at h'
      exact h'
    have hall := iterate_eq_of_fix (gcStep m.funcs) (roots m).toFinset k hfix
        ((gcUniverse m).card - k)
    rw [Nat.add_sub_cancel' hk] at hall
    apply hne
    rw [hall]
    exact hfix
  have hgrow : ∀ k, k ≤ (gcUniverse m).card + 1 →
      k ≤ ((gcStep m.funcs)^[k] (roots m).toFinset).card := by
    intro k
    induction k with
    | zero => intro _; exact Nat.zero_le _
    | succ j ih =>
      intro hj
      have hj' : j ≤ (gcUniverse m).card := Nat.lt_succ_iff.mp hj
      have hne' := hstrict j hj'
      have hsub : (gcStep m.funcs)^[j] (roots m).toFinset ⊆
          (gcStep m.funcs)^[j+1] (roots m).toFinset := by
        rw [Function.iterate_succ_apply']
        exact gcStep_infl _ _
      have hss : (gcStep m.funcs)^[j] (roots m).toFinset ⊂
          (gcStep m.funcs)^[j+1] (roots m).toFinset :=
        Finset.ssubset_iff_subset_ne.mpr ⟨hsub, hne'⟩
      have hcard := Finset.card_lt_card hss
      have := ih (Nat.le_of_succ_le hj)
      omega
  have h1 := hgrow ((gcUniverse m).card + 1) le_rfl
  have h2 : (((gcStep m.funcs)^[(gcUniverse m).card + 1] (roots m).toFinset)).card ≤
      (gcUniverse m).card :=
    Finset.card_le_card (iterate_subset_universe m _)
  omega

theorem roots_subset_gcKeep (m : Module) : (roots m).toFinset ⊆ gcKeep m := by
  unfold gcKeep
  generalize (gcUniverse m).card = n
  induction n with
  | zero => exact Finset.Subset.refl _
  | succ k ih =>
    rw [Function.iterate_succ_apply']
    exact ih.trans (gcStep_infl _ _)

theorem gcKeep_closed (m : Module) {x : Nat} (hx : x ∈ gcKeep m) :
    (succs m.funcs x).toFinset ⊆ gcKeep m := by
  intro y hy
  rw [← gcKeep_fixed m]
  unfold gcStep
  exact Finset.mem_union_right _ (Finset.mem_biUnion.mpr ⟨x, hx, hy⟩)

theorem gcKeep_minimal (m : Module) (T : Finset Nat)
    (hroots : (roots m).toFinset ⊆ T)
    (hclosed : ∀ x ∈ T, (succs m.funcs x).toFinset ⊆ T) :
    gcKeep m ⊆ T := by
  unfold gcKeep
  generalize (gcUniverse m).card = n
  induction n with
  | zero => exact hroots
  | succ k ih =>
    rw [Function.iterate_succ_apply']
    unfold gcStep
    refine Finset.union_subset ih (Finset.biUnion_subset.mpr ?_)
    intro x hx
    exact hclosed x (ih hx)

theorem find?_filter_of_imp {α : Type} (l : List α) (p q : α → Bool)
    (h : ∀ a, q a = true → p a = true) :
    (l.filter p).find? q = l.find? q := by
  induction l with
  | nil => rfl
  | cons a rest ih =>
    by_cases hq : q a = true
    · rw [List.filter_cons_of_pos (h a hq), List.find?_cons_of_pos _ hq,
        List.find?_cons_of_pos _ hq]
    · have hq' : ¬(q a = true) := hq
      by_cases hp : p a = true
      · rw [List.filter_cons_of_pos hp, List.find?_cons_of_neg _ hq',
          List.find?_cons_of_neg _ hq']
        exact ih
      · rw [List.filter_cons_of_neg (by simpa using hp), List.find?_cons_of_neg _ hq']
        exact ih

theorem succs_filter_keep (funcs : List Func) (K : Finset Nat) (x : Nat) :
    succs (funcs.filter (fun f => decide (f.id ∈ K))) x =
      if x ∈ K then succs funcs x else [] := by
  by_cases hx : x ∈ K
  · rw [if_pos hx]
    unfold succs
    rw [find?_filter_of_imp]
    intro a ha
    have haid : a.id = x := by simpa using ha
    rw [haid]
    simpa using hx
  · rw [if_neg hx]
    unfold succs
    cases h : (funcs.filter (fun f => decide (f.id ∈ K))).find? (fun f => f.id == x) with
    | none => rfl
    | some f =>
      have hmem := List.mem_of_find?_eq_some h
      have hpred := List.find?_some h
      have hfk : decide (f.id ∈ K) = true := (List.mem_filter.mp hmem).2
      have hfid : f.id = x := by simpa using hpred
      rw [hfid] at hfk
      exact absurd (by simpa using hfk) hx

theorem roots_gc_run (m : Module) : roots (gc_run m) = roots m := rfl

theorem gc_run_funcs (m : Module) :
    (gc_run m).funcs = m.funcs.filter (fun f => decide (f.id ∈ gcKeep m)) := rfl

theorem gcKeep_gc_run (m : Module) : gcKeep (gc_run m) = gcKeep m := by
  have hsub : gcKeep (gc_run m) ⊆ gcKeep m := by
    apply gcKeep_minimal
    · rw [roots_gc_run]
      exact roots_subset_gcKeep m
    · intro x hx
      rw [gc_run_funcs, succs_filter_keep]
      by_cases hxk : x ∈ gcKeep m
      · rw [if_pos hxk]
        exact gcKeep_closed m hxk
      · rw [if_neg hxk]
        simp
  apply Finset.Subset.antisymm hsub
  apply gcKeep_minimal
  · have := roots_subset_gcKeep (gc_run m)
    rw [roots_gc_run] at this
    exact this
  · intro x hx
    have hxm : x ∈ gcKeep m := hsub hx
    have hcl := gcKeep_closed (gc_run m) hx
    rw [gc_run_funcs, succs_filter_keep, if_pos hxm] at hcl
    exact hcl

theorem gc_run_idem (m : Module) : gc_run (gc_run m) = gc_run m := by
  have h1 : gc_run (gc_run m) =
      { gc_run m with
        funcs := (gc_run m).funcs.filter (fun f => decide (f.id ∈ gcKeep (gc_run m))),
        imports := (gc_run m).imports.filter (fun i =>
          match i.kind with
          | ImportKind.function f => decide (f ∈ gcKeep (gc_run m))
          | _ => true) } := rfl
  rw [h1, gcKeep_gc_run m]
  have hf : (gc_run m).funcs.filter (fun f => decide (f.id ∈ gcKeep m)) = (gc_run m).funcs := by
    apply List.filter_eq_self.mpr
    intro f hf
    exact (List.mem_filter.mp hf).2
  have hi : (gc_run m).imports.filter (fun i =>
      match i.kind with
      | ImportKind.function f => decide (f ∈ gcKeep m)
      | _ => true) = (gc_run m).imports := by
    apply List.filter_eq_self.mpr
    intro i hi
    exact (List.mem_filter.mp hi).2
  rw [hf, hi]

end WasmSnip

/-! ## Helper lemmas for the pipeline stages -/

namespace WasmSnip

theorem contains_iff_mem {α : Type} [BEq α] [LawfulBEq α] {l : List α} {x : α} :
    l.contains x = true ↔ x ∈ l := by
  rw [show l.contains x = List.elem x l from rfl]
  exact List.elem_iff

theorem rewriteFunc_id (s : List FuncId) (f : Func) : (rewriteFunc s f).id = f.id := by
  unfold rewriteFunc
  by_cases h : s.contains f.id = true
  · rw [if_pos h]
  · rw [if_neg h]
    cases f.body <;> rfl

theorem rewriteFunc_name (s : List FuncId) (f : Func) : (rewriteFunc s f).name = f.name := by
  unfold rewriteFunc
  by_cases h : s.contains f.id = true
  · rw [if_pos h]
  · rw [if_neg h]
    cases f.body <;> rfl

theorem funcExists_map_rewrite (s : List FuncId) (funcs : List Func) (x : FuncId) :
    funcExists (funcs.map (rewriteFunc s)) x = funcExists funcs x := by
  induction funcs with
  | nil => rfl
  | cons g rest ih =>
    unfold funcExists at *
    simp only [List.map_cons, List.any_cons, rewriteFunc_id, ih]

theorem funcExists_append (a b : List Func) (x : FuncId) :
    funcExists (a ++ b) x = (funcExists a x || funcExists b x) := by
  unfold funcExists
  exact List.any_append

theorem funcExists_filter {p : Func → Bool} {funcs : List Func} {x : FuncId}
    (hex : funcExists funcs x = true) (hp : ∀ f ∈ funcs, f.id = x → p f = true) :
    funcExists (funcs.filter p) x = true := by
  unfold funcExists at *
  obtain ⟨f, hf, hfx⟩ := List.any_eq_true.mp hex
  refine List.any_eq_true.mpr ⟨f, ?_, hfx⟩
  exact List.mem_filter.mpr ⟨hf, hp f hf (by simpa using hfx)⟩

theorem PatchExt.refl (st : PatchState) : PatchExt st st :=
  ⟨⟨[], by simp, by simp⟩, le_rfl, ⟨[], by simp⟩⟩

theorem PatchExt.trans {a b c : PatchState} (h1 : PatchExt a b) (h2 : PatchExt b c) :
    PatchExt a c := by
  obtain ⟨⟨e1, he1, hn1⟩, hx1, ⟨d1, hd1⟩⟩ := h1
  obtain ⟨⟨e2, he2, hn2⟩, hx2, ⟨d2, hd2⟩⟩ := h2
  refine ⟨⟨e1 ++ e2, by rw [he2, he1, List.append_assoc], ?_⟩, hx1.trans hx2,
    ⟨d1 ++ d2, by rw [hd2, hd1, List.append_assoc]⟩⟩
  intro g hg
  rcases List.mem_append.mp hg with h | h
  · exact hn1 g h
  · obtain ⟨ha, hb⟩ := hn2 g h
    exact ⟨ha, hx1.trans hb⟩

theorem getStub_ext (ty : TypeId) (st : PatchState) : PatchExt st (getStub ty st).2 := by
  unfold getStub
  cases h : cacheLookup st.cache ty with
  | some fid => exact PatchExt.refl st
  | none =>
    unfold make_unreachable_func
    refine ⟨⟨[{ id := st.nextId, name := none, ty := ty, body := some [Instr.unreachable] }],
      rfl, ?_⟩, Nat.le_succ _, ⟨[(ty, st.nextId)], rfl⟩⟩
    intro g hg
    rw [List.mem_singleton.mp hg]
    exact ⟨rfl, le_rfl⟩

theorem patchElem_ext (s : List FuncId) (st : PatchState) (el : FuncId) :
    PatchExt st (patchElem s st el).2 := by
  unfold patchElem
  by_cases h : s.contains el = true
  · rw [if_pos h]
    exact getStub_ext _ st
  · rw [if_neg h]
    exact PatchExt.refl st

theorem patchOptElems_ext (s : List FuncId) :
    ∀ (els : List (Option FuncId)) (st : PatchState),
      PatchExt st (patchOptElems s st els).2
  | [], st => PatchExt.refl st
  | none :: rest, st => patchOptElems_ext s rest st
  | some el :: rest, st =>
    (patchElem_ext s st el).trans (patchOptElems_ext s rest (patchElem s st el).2)

theorem patchElems_ext (s : List FuncId) :
    ∀ (els : List FuncId) (st : PatchState), PatchExt st (patchElems s st els).2
  | [], st => PatchExt.refl st
  | el :: rest, st =>
    (patchElem_ext s st el).trans (patchElems_ext s rest (patchElem s st el).2)

theorem patchRelElems_ext (s : List FuncId) :
    ∀ (rels : List (Nat × List FuncId)) (st : PatchState),
      PatchExt st (patchRelElems s st rels).2
  | [], st => PatchExt.refl st
  | (_off, els) :: rest, st =>
    (patchElems_ext s els st).trans (patchRelElems_ext s rest (patchElems s st els).2)

theorem patchTable_ext (s : List FuncId) (st : PatchState) (t : Table) :
    PatchExt st (patchTable s st t).2 := by
  unfold patchTable
  cases t with
  | mk tid kind =>
    cases kind with
    | function ft =>
      exact (patchOptElems_ext s ft.elements st).trans
        (patchRelElems_ext s ft.relativeElements (patchOptElems s st ft.elements).2)
    | otherKind c => exact PatchExt.refl st

theorem patchTables_ext (s : List FuncId) :
    ∀ (ts : List Table) (st : PatchState), PatchExt st (patchTables s st ts).2
  | [], st => PatchExt.refl st
  | t :: rest, st =>
    (patchTable_ext s st t).trans (patchTables_ext s rest (patchTable s st t).2)

theorem snip_table_elements_funcs (m : Module) (to_snip : List FuncId) :
    ∃ ext, (snip_table_elements m to_snip).funcs = m.funcs ++ ext ∧
      ∀ g ∈ ext, g.name = none ∧ m.nextFuncId ≤ g.id := by
  unfold snip_table_elements
  exact (patchTables_ext to_snip m.tables
    { cache := [], funcs := m.funcs, nextId := m.nextFuncId }).funcsExt

theorem snip_table_elements_exports (m : Module) (to_snip : List FuncId) :
    (snip_table_elements m to_snip).exports = m.exports := rfl

theorem snip_table_elements_imports (m : Module) (to_snip : List FuncId) :
    (snip_table_elements m to_snip).imports = m.imports := rfl

end WasmSnip

/-! ## The success path of `snip` (C8) -/

namespace WasmSnip

theorem snip_success_eq (eng : RegexEngine) (m : Module) (opts : Options)
    (h1 : opts.kept_export_patterns.all eng.compiles = true)
    (h2 : (effectivePatterns opts).all eng.compiles = true) :
    snip eng m opts = (snipCore eng (snipM1 m opts) opts, none) := by
  have ha : RegexSet.new eng opts.kept_export_patterns =
      Except.ok ⟨opts.kept_export_patterns⟩ := by
    unfold RegexSet.new
    rw [if_pos h1]
  have hb : RegexSet.new eng (effectivePatterns opts) =
      Except.ok ⟨effectivePatterns opts⟩ := by
    unfold RegexSet.new
    rw [if_pos h2]
  unfold snip build_regex_set snipCore snipM7 snipM1 snipExportsToDelete snipToSnip
  rw [ha, hb]

theorem snipM7_exports (eng : RegexEngine) (m1 : Module) (opts : Options) :
    (snipM7 eng m1 opts).exports =
      (m1.exports.filter (fun e => !((snipExportsToDelete eng m1 opts).contains e.id))).filter
        (fun e =>
          match e.item with
          | ExportItem.function f => !((snipToSnip eng m1 opts).contains f)
          | _ => true) := rfl

theorem snipM7_imports (eng : RegexEngine) (m1 : Module) (opts : Options) :
    (snipM7 eng m1 opts).imports =
      m1.imports.filter (fun i =>
        match i.kind with
        | ImportKind.function f => !((snipToSnip eng m1 opts).contains f)
        | _ => true) := rfl

theorem snipM7_funcs (eng : RegexEngine) (m1 : Module) (opts : Options) :
    ∃ ext, (snipM7 eng m1 opts).funcs =
      (m1.funcs.map (rewriteFunc (snipToSnip eng m1 opts)) ++ ext).filter
        (fun f => !((snipToSnip eng m1 opts).contains f.id)) ∧
      ∀ g ∈ ext, g.name = none ∧ m1.nextFuncId ≤ g.id := by
  obtain ⟨ext, hext, hprop⟩ := snip_table_elements_funcs
    (unimport_snipped_functions
      (unexport_snipped_functions
        (replace_calls_with_unreachable
          (delete_exports m1 (snipExportsToDelete eng m1 opts))
          (snipToSnip eng m1 opts))
        (snipToSnip eng m1 opts))
      (snipToSnip eng m1 opts))
    (snipToSnip eng m1 opts)
  refine ⟨ext, ?_, hprop⟩
  show ((snip_table_elements _ _).funcs.filter _) = _
  rw [hext]
  rfl

theorem export_root_mem_gcKeep (m : Module) (e : Export) (f : FuncId)
    (he : e ∈ m.exports) (hi : e.item = ExportItem.function f) : f ∈ gcKeep m := by
  apply roots_subset_gcKeep m
  rw [List.mem_toFinset]
  unfold roots
  apply List.mem_append.mpr
  left
  apply List.mem_append.mpr
  left
  exact List.mem_filterMap.mpr ⟨e, he, by rw [hi]⟩

theorem snipCore_funcExists (eng : RegexEngine) (m1 : Module) (opts : Options) (f' : FuncId)
    (hex : funcExists m1.funcs f' = true)
    (hns : (snipToSnip eng m1 opts).contains f' = false)
    (hkeep : f' ∈ gcKeep (snipM7 eng m1 opts)) :
    funcExists (snipCore eng m1 opts).funcs f' = true := by
  obtain ⟨ext, hfuncs, _⟩ := snipM7_funcs eng m1 opts
  have step1 : funcExists (m1.funcs.map (rewriteFunc (snipToSnip eng m1 opts))) f' = true := by
    rw [funcExists_map_rewrite]
    exact hex
  have step2 : funcExists (m1.funcs.map (rewriteFunc (snipToSnip eng m1 opts)) ++ ext) f' = true := by
    rw [funcExists_append, step1]
    rfl
  have step3 : funcExists (snipM7 eng m1 opts).funcs f' = true := by
    rw [hfuncs]
    apply funcExists_filter step2
    intro g _ hg
    rw [hg, hns]
    rfl
  show funcExists ((snipM7 eng m1 opts).funcs.filter
    (fun f => decide (f.id ∈ gcKeep (snipM7 eng m1 opts)))) f' = true
  apply funcExists_filter step3
  intro g _ hg
  rw [hg]
  simpa using hkeep

/-- C8: after a successful run, every remaining export's referenced function
and every remaining import's referenced function still exists in the module:
nothing holds a handle to a function deleted as a direct target or by the
reachability collection. -/
theorem claim_C8_interface_consistency (eng : RegexEngine) (m : Module) (opts : Options)
    (hexp : exportRefsLive m = true) (himp : importRefsLive m = true)
    (hok : (snip eng m opts).2 = none) :
    exportRefsLive (snip eng m opts).1 = true ∧
    importRefsLive (snip eng m opts).1 = true := by
  have h1 : opts.kept_export_patterns.all eng.compiles = true := by
    by_contra hc
    rw [Bool.not_eq_true] at hc
    have ha : RegexSet.new eng opts.kept_export_patterns =
        Except.error SnipError.patternCompileError := by
      unfold RegexSet.new
      rw [if_neg (by rw [hc]; exact Bool.false_ne_true)]
    unfold snip at hok
    rw [ha] at hok
    simp at hok
  have h2 : (effectivePatterns opts).all eng.compiles = true := by
    by_contra hc
    rw [Bool.not_eq_true] at hc
    have ha : RegexSet.new eng opts.kept_export_patterns =
        Except.ok ⟨opts.kept_export_patterns⟩ := by
      unfold RegexSet.new
      rw [if_pos h1]
    have hb : RegexSet.new eng (effectivePatterns opts) =
        Except.error SnipError.patternCompileError := by
      unfold RegexSet.new
      rw [if_neg (by rw [hc]; exact Bool.false_ne_true)]
    unfold snip build_regex_set at hok
    rw [ha, hb] at hok
    simp at hok
  rw [snip_success_eq eng m opts h1 h2]
  show exportRefsLive (snipCore eng (snipM1 m opts) opts) = true ∧
    importRefsLive (snipCore eng (snipM1 m opts) opts) = true
  have hexp1 : exportRefsLive (snipM1 m opts) = true := by
    unfold snipM1
    cases opts.skip_producers_section <;> simpa [addProcessedBy, exportRefsLive, funcExists]
      using hexp
  have himp1 : importRefsLive (snipM1 m opts) = true := by
    unfold snipM1
    cases opts.skip_producers_section <;> simpa [addProcessedBy, importRefsLive, funcExists]
      using himp
  generalize (snipM1 m opts) = m1 at hexp1 himp1
  constructor
  · unfold exportRefsLive
    apply List.all_eq_true.mpr
    intro e he
    cases hitem : e.item with
    | otherItem c => simp [hitem]
    | function f' =>
      have heM7 : e ∈ (snipM7 eng m1 opts).exports := he
      rw [snipM7_exports] at heM7
      obtain ⟨hin1, hcond2⟩ := List.mem_filter.mp heM7
      obtain ⟨hmem1, _⟩ := List.mem_filter.mp hin1
      rw [hitem] at hcond2
      have hns : (snipToSnip eng m1 opts).contains f' = false := by
        simpa using hcond2
      have hex : funcExists m1.funcs f' = true := by
        have h := List.all_eq_true.mp hexp1 e hmem1
        rw [hitem] at h
        exact h
      have hkeep : f' ∈ gcKeep (snipM7 eng m1 opts) :=
        export_root_mem_gcKeep (snipM7 eng m1 opts) e f' he hitem
      exact snipCore_funcExists eng m1 opts f' hex hns hkeep
  · unfold importRefsLive
    apply List.all_eq_true.mpr
    intro i hi
    cases hkind : i.kind with
    | otherItem c => simp [hkind]
    | function f' =>
      have hiGc : i ∈ ((snipM7 eng m1 opts).imports.filter (fun i =>
          match i.kind with
          | ImportKind.function f => decide (f ∈ gcKeep (snipM7 eng m1 opts))
          | _ => true)) := hi
      obtain ⟨hiM7, hq⟩ := List.mem_filter.mp hiGc
      rw [hkind] at hq
      have hkeep : f' ∈ gcKeep (snipM7 eng m1 opts) := by simpa using hq
      rw [snipM7_imports] at hiM7
      obtain ⟨hmem1, hc3⟩ := List.mem_filter.mp hiM7
      rw [hkind] at hc3
      have hns : (snipToSnip eng m1 opts).contains f' = false := by
        simpa using hc3
      have hex : funcExists m1.funcs f' = true := by
        have h := List.all_eq_true.mp himp1 i hmem1
        rw [hkind] at h
        exact h
      exact snipCore_funcExists eng m1 opts f' hex hns hkeep

theorem claim_C8_interface_consistency_witness :
    exportRefsLive (snip engLit mC8 optsC8).1 = true ∧
    importRefsLive (snip engLit mC8 optsC8).1 = true :=
  claim_C8_interface_consistency engLit mC8 optsC8 (by decide) (by decide) (by decide)

end WasmSnip

/-! ## Identity of the pipeline stages on an empty snip set (C9) -/

namespace WasmSnip

mutual

theorem rewriteInstr_nilSnip : ∀ i, rewriteInstr [] i = i
  | Instr.call _ => rfl
  | Instr.callIndirect _ => rfl
  | Instr.unreachable => rfl
  | Instr.other _ => rfl
  | Instr.block b =>
    congrArg Instr.block (rewriteSeq_nilSnip b)

theorem rewriteSeq_nilSnip : ∀ l, rewriteSeq [] l = l
  | [] => rfl
  | i :: r => by
    rw [show rewriteSeq [] (i :: r) = rewriteInstr [] i :: rewriteSeq [] r from rfl,
      rewriteInstr_nilSnip i, rewriteSeq_nilSnip r]

end

theorem rewriteFunc_nilSnip (f : Func) : rewriteFunc [] f = f := by
  unfold rewriteFunc
  rw [if_neg (show ¬(([] : List FuncId).contains f.id = true) from
    fun h => Bool.false_ne_true h)]
  cases hb : f.body with
  | none => rfl
  | some b =>
    show ({ id := f.id, name := f.name, ty := f.ty, body := some (rewriteSeq [] b) } : Func) = f
    rw [rewriteSeq_nilSnip b, ← hb]

theorem map_rewriteFunc_nil (l : List Func) : l.map (rewriteFunc []) = l := by
  induction l with
  | nil => rfl
  | cons f r ih => rw [List.map_cons, rewriteFunc_nilSnip, ih]

theorem replace_calls_nilSnip (m : Module) : replace_calls_with_unreachable m [] = m := by
  unfold replace_calls_with_unreachable
  rw [map_rewriteFunc_nil]

theorem delete_exports_nil (m : Module) : delete_exports m [] = m := by
  have h : m.exports.filter (fun e => !(([] : List ExportId).contains e.id)) = m.exports :=
    List.filter_eq_self.mpr (fun _ _ => rfl)
  unfold delete_exports
  rw [h]

theorem delete_functions_nil (m : Module) : delete_functions_to_snip m [] = m := by
  have h : m.funcs.filter (fun f => !(([] : List FuncId).contains f.id)) = m.funcs :=
    List.filter_eq_self.mpr (fun _ _ => rfl)
  unfold delete_functions_to_snip
  rw [h]

theorem unexport_nil (m : Module) : unexport_snipped_functions m [] = m := by
  have h : m.exports.filter (fun e =>
      match e.item with
      | ExportItem.function f => !(([] : List FuncId).contains f)
      | _ => true) = m.exports := by
    apply List.filter_eq_self.mpr
    intro e _
    cases he : e.item <;> simp [he]
  unfold unexport_snipped_functions
  rw [h]

theorem unimport_nil (m : Module) : unimport_snipped_functions m [] = m := by
  have h : m.imports.filter (fun i =>
      match i.kind with
      | ImportKind.function f => !(([] : List FuncId).contains f)
      | _ => true) = m.imports := by
    apply List.filter_eq_self.mpr
    intro i _
    cases hk : i.kind <;> simp [hk]
  unfold unimport_snipped_functions
  rw [h]

theorem patchElem_nil (st : PatchState) (el : FuncId) : patchElem [] st el = (el, st) := by
  unfold patchElem
  rw [if_neg (show ¬(([] : List FuncId).contains el = true) from
    fun h => Bool.false_ne_true h)]

theorem patchOptElems_nil (els : List (Option FuncId)) :
    ∀ st, patchOptElems [] st els = (els, st) := by
  induction els with
  | nil => intro st; rfl
  | cons hd rest ih =>
    intro st
    cases hd with
    | none => simp only [patchOptElems, ih]
    | some el => simp only [patchOptElems, patchElem_nil, ih]

theorem patchElems_nil (els : List FuncId) :
    ∀ st, patchElems [] st els = (els, st) := by
  induction els with
  | nil => intro st; rfl
  | cons el rest ih =>
    intro st
    simp only [patchElems, patchElem_nil, ih]

theorem patchRelElems_nil (rels : List (Nat × List FuncId)) :
    ∀ st, patchRelElems [] st rels = (rels, st) := by
  induction rels with
  | nil => intro st; rfl
  | cons hd rest ih =>
    intro st
    cases hd with
    | mk off els => simp only [patchRelElems, patchElems_nil, ih]

theorem patchTable_nil (st : PatchState) (t : Table) : patchTable [] st t = (t, st) := by
  cases t with
  | mk tid kind =>
    cases kind with
    | function ft =>
      cases ft with
      | mk els rels => simp only [patchTable, patchOptElems_nil, patchRelElems_nil]
    | otherKind c => rfl

theorem patchTables_nil (ts : List Table) :
    ∀ st, patchTables [] st ts = (ts, st) := by
  induction ts with
  | nil => intro st; rfl
  | cons t rest ih =>
    intro st
    simp only [patchTables, patchTable_nil, ih]

theorem snip_table_elements_nil (m : Module) : snip_table_elements m [] = m := by
  show (match patchTables [] { cache := [], funcs := m.funcs, nextId := m.nextFuncId } m.tables with
    | (ts, st) => { m with tables := ts, funcs := st.funcs, nextFuncId := st.nextId }) = m
  rw [patchTables_nil]

end WasmSnip

/-! ## Second-run facts (C9) -/

namespace WasmSnip

theorem not_mem_of_contains_false {α : Type} [BEq α] [LawfulBEq α] {l : List α} {x : α}
    (h : l.contains x = false) : x ∉ l := by
  intro hm
  rw [contains_iff_mem.mpr hm] at h
  cases h

theorem snip_ok_compiles (eng : RegexEngine) (m : Module) (opts : Options)
    (hok : (snip eng m opts).2 = none) :
    opts.kept_export_patterns.all eng.compiles = true ∧
    (effectivePatterns opts).all eng.compiles = true := by
  have h1 : opts.kept_export_patterns.all eng.compiles = true := by
    by_contra hc
    rw [Bool.not_eq_true] at hc
    have ha : RegexSet.new eng opts.kept_export_patterns =
        Except.error SnipError.patternCompileError := by
      unfold RegexSet.new
      rw [if_neg (by rw [hc]; exact Bool.false_ne_true)]
    unfold snip at hok
    rw [ha] at hok
    simp at hok
  refine ⟨h1, ?_⟩
  by_contra hc
  rw [Bool.not_eq_true] at hc
  have ha : RegexSet.new eng opts.kept_export_patterns =
      Except.ok ⟨opts.kept_export_patterns⟩ := by
    unfold RegexSet.new
    rw [if_pos h1]
  have hb : RegexSet.new eng (effectivePatterns opts) =
      Except.error SnipError.patternCompileError := by
    unfold RegexSet.new
    rw [if_neg (by rw [hc]; exact Bool.false_ne_true)]
  unfold snip build_regex_set at hok
  rw [ha, hb] at hok
  simp at hok

theorem bind_if_none_of (names : List String) (eng : RegexEngine) (rs : RegexSet)
    (idg idf : FuncId) (n : String)
    (h : (if names.contains n || RegexSet.is_match eng rs n then some idg else none) = none) :
    (if names.contains n || RegexSet.is_match eng rs n then some idf else none) = none := by
  by_cases hc : (names.contains n || RegexSet.is_match eng rs n) = true
  · rw [if_pos hc] at h
    cases h
  · rw [if_neg hc]

theorem not_selected_bind_none (eng : RegexEngine) (m : Module) (names : List String)
    (rs : RegexSet) (f : Func) (hf : f ∈ m.funcs)
    (h : f.id ∉ find_functions_to_snip eng m names rs) :
    f.name.bind (fun n =>
      if names.contains n || rs.is_match eng n then some f.id else none) = none := by
  cases hn : f.name with
  | none => rfl
  | some n =>
    simp only [Option.some_bind]
    by_cases hc : (names.contains n || rs.is_match eng n) = true
    · exfalso
      apply h
      unfold find_functions_to_snip
      refine List.mem_filterMap.mpr ⟨f, hf, ?_⟩
      rw [hn]
      simp only [Option.some_bind]
      rw [if_pos hc]
    · rw [if_neg hc]

theorem find_functions_eq_nil_of_no_match (eng : RegexEngine) (m : Module)
    (names : List String) (rs : RegexSet)
    (h : ∀ f ∈ m.funcs, f.name.bind (fun n =>
        if names.contains n || rs.is_match eng n then some f.id else none) = none) :
    find_functions_to_snip eng m names rs = [] := by
  unfold find_functions_to_snip
  exact List.filterMap_eq_nil_iff.mpr h

theorem find_exports_to_delete_nil (eng : RegexEngine) (m : Module) (names : List String)
    (rs : RegexSet)
    (h : ∀ e ∈ m.exports, ∀ f, e.item = ExportItem.function f →
        (names.contains e.name || rs.is_match eng e.name) = true) :
    find_exports_to_delete eng m names rs = [] := by
  unfold find_exports_to_delete
  apply List.filterMap_eq_nil_iff.mpr
  intro e he
  obtain ⟨e0, he0, hfn⟩ := List.mem_filterMap.mp he
  unfold is_function at hfn
  cases hi : e0.item with
  | function f =>
    rw [hi] at hfn
    have he0e : e0 = e := Option.some.inj hfn
    subst he0e
    rw [if_pos (h e0 he0 f hi)]
  | otherItem c =>
    rw [hi] at hfn
    cases hfn

theorem surviving_export_matches (eng : RegexEngine) (m : Module) (names : List String)
    (rs : RegexSet) (e : Export) (hmem : e ∈ m.exports)
    (hc1 : (find_exports_to_delete eng m names rs).contains e.id = false)
    (f : FuncId) (hitem : e.item = ExportItem.function f) :
    (names.contains e.name || rs.is_match eng e.name) = true := by
  by_contra hc
  have hmemdel : e.id ∈ find_exports_to_delete eng m names rs := by
    unfold find_exports_to_delete
    refine List.mem_filterMap.mpr ⟨e, ?_, ?_⟩
    · refine List.mem_filterMap.mpr ⟨e, hmem, ?_⟩
      unfold is_function
      rw [hitem]
    · rw [if_neg hc]
  have := contains_iff_mem.mpr hmemdel
  rw [hc1] at this
  cases this

theorem snipM1_skip (m : Module) (opts : Options) (h : opts.skip_producers_section = true) :
    snipM1 m opts = m := by
  unfold snipM1
  rw [h]
  rfl

/-- C9 (amended): with the producers (build-provenance) entry suppressed,
running the pass a second time with the same options on the output of a
successful first run selects no functions for snipping and produces a module
equal to its input.  Without suppression the second run differs from its
input exactly by another appended provenance entry (see the
counterexample). -/
theorem claim_C9_second_run_noop (eng : RegexEngine) (m : Module) (opts : Options)
    (hskip : opts.skip_producers_section = true)
    (hok : (snip eng m opts).2 = none) :
    snipSelection eng (snip eng m opts).1 opts = [] ∧
    snip eng (snip eng m opts).1 opts = ((snip eng m opts).1, none) := by
  obtain ⟨h1, h2⟩ := snip_ok_compiles eng m opts hok
  have hs1 : snip eng m opts = (snipCore eng m opts, none) := by
    rw [snip_success_eq eng m opts h1 h2, snipM1_skip m opts hskip]
  have hMfst : (snip eng m opts).1 = snipCore eng m opts := by rw [hs1]
  have hfun : ∀ f ∈ (snipCore eng m opts).funcs,
      f.name.bind (fun n =>
        if opts.functions.contains n ||
            RegexSet.is_match eng ⟨effectivePatterns opts⟩ n
        then some f.id else none) = none := by
    intro f hf
    have hf7 : f ∈ (snipM7 eng m opts).funcs := (List.mem_filter.mp hf).1
    obtain ⟨ext, hfuncs, hprop⟩ := snipM7_funcs eng m opts
    rw [hfuncs] at hf7
    obtain ⟨hfmem, hfkeep⟩ := List.mem_filter.mp hf7
    rcases List.mem_append.mp hfmem with hmap | hext
    · obtain ⟨g, hg, hge⟩ := List.mem_map.mp hmap
      have hid : f.id = g.id := by
        rw [← hge]
        exact rewriteFunc_id _ g
      have hname : f.name = g.name := by
        rw [← hge]
        exact rewriteFunc_name _ g
      have hnotin : (snipToSnip eng m opts).contains f.id = false := by
        cases h : (snipToSnip eng m opts).contains f.id
        · rfl
        · rw [h] at hfkeep
          cases hfkeep
      have hgnot : g.id ∉ snipToSnip eng m opts := by
        apply not_mem_of_contains_false
        rw [← hid]
        exact hnotin
      have hbind := not_selected_bind_none eng m opts.functions
        ⟨effectivePatterns opts⟩ g hg hgnot
      rw [hname]
      cases hn : g.name with
      | none => rfl
      | some n =>
        rw [hn] at hbind
        simp only [Option.some_bind] at hbind ⊢
        exact bind_if_none_of opts.functions eng ⟨effectivePatterns opts⟩ g.id f.id n hbind
    · rw [(hprop f hext).1]
      rfl
  have hS2 : snipToSnip eng (snipCore eng m opts) opts = [] :=
    find_functions_eq_nil_of_no_match eng _ opts.functions _ hfun
  refine ⟨?_, ?_⟩
  · rw [hMfst]
    unfold snipSelection build_regex_set
    rw [show RegexSet.new eng (effectivePatterns opts) =
        Except.ok ⟨effectivePatterns opts⟩ from by
      unfold RegexSet.new
      rw [if_pos h2]]
    exact hS2
  · rw [hMfst]
    have hD2 : snipExportsToDelete eng (snipCore eng m opts) opts = [] := by
      unfold snipExportsToDelete
      apply find_exports_to_delete_nil
      intro e he f hitem
      have he7 : e ∈ (snipM7 eng m opts).exports := he
      rw [snipM7_exports] at he7
      obtain ⟨hin1, _⟩ := List.mem_filter.mp he7
      obtain ⟨hmem, hc1⟩ := List.mem_filter.mp hin1
      have hc1' : (snipExportsToDelete eng m opts).contains e.id = false := by
        cases h : (snipExportsToDelete eng m opts).contains e.id
        · rfl
        · rw [h] at hc1
          cases hc1
      exact surviving_export_matches eng m opts.kept_exports
        ⟨opts.kept_export_patterns⟩ e hmem hc1' f hitem
    have hrun2 : snip eng (snipCore eng m opts) opts =
        (snipCore eng (snipCore eng m opts) opts, none) := by
      rw [snip_success_eq eng _ opts h1 h2, snipM1_skip _ opts hskip]
    rw [hrun2]
    have hM7eq : snipM7 eng (snipCore eng m opts) opts = snipCore eng m opts := by
      unfold snipM7
      rw [hD2, hS2, delete_exports_nil, replace_calls_nilSnip, unexport_nil, unimport_nil,
        snip_table_elements_nil, delete_functions_nil]
    have hcore : snipCore eng (snipCore eng m opts) opts = snipCore eng m opts := by
      show gc_run (snipM7 eng (snipCore eng m opts) opts) = snipCore eng m opts
      rw [hM7eq]
      show gc_run (gc_run (snipM7 eng m opts)) = gc_run (snipM7 eng m opts)
      exact gc_run_idem _
    rw [hcore]

theorem claim_C9_second_run_noop_witness :
    snipSelection engLit (snip engLit mC9w optsC9).1 optsC9 = [] ∧
    snip engLit (snip engLit mC9w optsC9).1 optsC9 = ((snip engLit mC9w optsC9).1, none) :=
  claim_C9_second_run_noop engLit mC9w optsC9 (by decide) (by decide)

/-- C9 counterexample: with the producers entry not suppressed (the default),
a second run is not a no-op: it appends another provenance entry, so the
produced module differs from its input. -/
theorem claim_C9_cex_producers_accumulate :
    (snip engLit mC9 Options.default).2 = none ∧
    (snip engLit (snip engLit mC9 Options.default).1 Options.default).2 = none ∧
    (snip engLit (snip engLit mC9 Options.default).1 Options.default).1 ≠
      (snip engLit mC9 Options.default).1 := by
  refine ⟨by decide, by decide, fun h => ?_⟩
  have h2 := congrArg Module.producers h
  revert h2
  decide

end WasmSnip

/-! ## Stub-cache theory (C5, C7) -/

namespace WasmSnip

theorem cacheLookup_mem {c : List (TypeId × FuncId)} {ty : TypeId} {fid : FuncId}
    (h : cacheLookup c ty = some fid) : (ty, fid) ∈ c := by
  induction c with
  | nil => cases h
  | cons pr rest ih =>
    cases pr with
    | mk t g =>
      unfold cacheLookup at h
      by_cases ht : (t == ty) = true
      · rw [if_pos ht] at h
        have h1 : t = ty := eq_of_beq ht
        have h2 : g = fid := Option.some.inj h
        rw [← h1, h2]
        exact List.mem_cons_self _ _
      · rw [if_neg ht] at h
        exact List.mem_cons.mpr (Or.inr (ih h))

theorem cacheLookup_none_not_mem {c : List (TypeId × FuncId)} {ty : TypeId} :
    cacheLookup c ty = none → ty ∉ cacheKeys c := by
  induction c with
  | nil =>
    intro _ hm
    cases hm
  | cons pr rest ih =>
    cases pr with
    | mk t g =>
      intro h hm
      unfold cacheLookup at h
      by_cases ht : (t == ty) = true
      · rw [if_pos ht] at h
        cases h
      · rw [if_neg ht] at h
        rcases List.mem_cons.mp hm with h1 | h1
        · refine ht ?_
          rw [h1]
          exact beq_self_eq_true t
        · exact ih h h1

theorem cacheLookup_of_mem_nodup {c : List (TypeId × FuncId)} {ty : TypeId} {fid : FuncId}
    (hnd : (cacheKeys c).Nodup) (hm : (ty, fid) ∈ c) :
    cacheLookup c ty = some fid := by
  induction c with
  | nil => cases hm
  | cons pr rest ih =>
    cases pr with
    | mk t g =>
      rcases List.mem_cons.mp hm with h1 | h1
      · have h2 : ty = t := congrArg Prod.fst h1
        have h3 : fid = g := congrArg Prod.snd h1
        unfold cacheLookup
        rw [if_pos (show (t == ty) = true by rw [h2]; exact beq_self_eq_true t), h3]
      · have hty : ty ∈ cacheKeys rest :=
          List.mem_map.mpr ⟨(ty, fid), h1, rfl⟩
        have hcons : (cacheKeys (⟨t, g⟩ :: rest)).Nodup = (t :: cacheKeys rest).Nodup := rfl
        rw [hcons] at hnd
        have ht : ¬(t == ty) = true := by
          intro hbeq
          have heq : t = ty := eq_of_beq hbeq
          have hnotin : t ∉ cacheKeys rest := (List.nodup_cons.mp hnd).1
          rw [heq] at hnotin
          exact hnotin hty
        unfold cacheLookup
        rw [if_neg ht]
        exact ih (List.nodup_cons.mp hnd).2 h1

theorem mem_of_cachePrefix {c c' : List (TypeId × FuncId)} {pr : TypeId × FuncId}
    (h : cachePrefix c c') (hm : pr ∈ c) : pr ∈ c' := by
  obtain ⟨d, hd⟩ := h
  rw [hd]
  exact List.mem_append.mpr (Or.inl hm)

theorem cachePrefix_refl (c : List (TypeId × FuncId)) : cachePrefix c c :=
  ⟨[], by simp⟩

theorem cachePrefix_trans {a b c : List (TypeId × FuncId)}
    (h1 : cachePrefix a b) (h2 : cachePrefix b c) : cachePrefix a c := by
  obtain ⟨d1, hd1⟩ := h1
  obtain ⟨d2, hd2⟩ := h2
  exact ⟨d1 ++ d2, by rw [hd2, hd1, List.append_assoc]⟩

theorem funcTy_append_of_exists (orig ext : List Func) (x : FuncId)
    (hex : funcExists orig x = true) : funcTy (orig ++ ext) x = funcTy orig x := by
  obtain ⟨f, hf, hfx⟩ := List.any_eq_true.mp hex
  have hsome : ∃ g, orig.find? (fun f => f.id == x) = some g := by
    rcases h : orig.find? (fun f => f.id == x) with _ | g
    · exfalso
      have := List.find?_eq_none.mp h f hf
      exact this hfx
    · exact ⟨g, h⟩
  obtain ⟨g, hg⟩ := hsome
  unfold funcTy
  rw [List.find?_append, hg]
  rfl

end WasmSnip

namespace WasmSnip

theorem getStub_spec (orig : List Func) (next0 : Nat) (ty : TypeId) (st : PatchState)
    (hinv : PatchInv orig next0 st) :
    PatchInv orig next0 (getStub ty st).2 ∧
    cachePrefix st.cache (getStub ty st).2.cache ∧
    (ty, (getStub ty st).1) ∈ (getStub ty st).2.cache := by
  obtain ⟨hfuncs, hnd, hbounds, hnext⟩ := hinv
  unfold getStub
  cases hl : cacheLookup st.cache ty with
  | some fid =>
    exact ⟨⟨hfuncs, hnd, hbounds, hnext⟩, cachePrefix_refl _, cacheLookup_mem hl⟩
  | none =>
    unfold make_unreachable_func
    refine ⟨⟨?_, ?_, ?_, ?_⟩, ⟨[(ty, st.nextId)], rfl⟩, ?_⟩
    · show st.funcs ++
          [{ id := st.nextId, name := none, ty := ty, body := some [Instr.unreachable] }] =
        orig ++ (st.cache ++ [(ty, st.nextId)]).map mkStubFunc
      rw [hfuncs, List.map_append, List.append_assoc]
      rfl
    · show (cacheKeys (st.cache ++ [(ty, st.nextId)])).Nodup
      have hkeys : cacheKeys (st.cache ++ [(ty, st.nextId)]) = cacheKeys st.cache ++ [ty] := by
        unfold cacheKeys
        rw [List.map_append]
        rfl
      rw [hkeys]
      refine List.Nodup.append hnd (List.nodup_singleton ty) ?_
      intro a ha hb
      rw [List.mem_singleton.mp hb] at ha
      exact cacheLookup_none_not_mem hl ha
    · intro pr hpr
      rcases List.mem_append.mp hpr with h | h
      · obtain ⟨hb1, hb2⟩ := hbounds pr h
        exact ⟨hb1, Nat.lt_succ_of_lt hb2⟩
      · rw [List.mem_singleton.mp h]
        exact ⟨hnext, Nat.lt_succ_self _⟩
    · exact Nat.le_succ_of_le hnext
    · exact List.mem_append.mpr (Or.inr (List.mem_singleton.mpr rfl))

theorem patchElem_spec (orig : List Func) (next0 : Nat) (to_snip : List FuncId)
    (st : PatchState) (el : FuncId)
    (hinv : PatchInv orig next0 st)
    (hsn : ∀ x ∈ to_snip, funcExists orig x = true) :
    PatchInv orig next0 (patchElem to_snip st el).2 ∧
    cachePrefix st.cache (patchElem to_snip st el).2.cache ∧
    ((to_snip.contains el = false ∧ (patchElem to_snip st el).1 = el) ∨
     (to_snip.contains el = true ∧
       (funcTy orig el, (patchElem to_snip st el).1) ∈ (patchElem to_snip st el).2.cache)) := by
  unfold patchElem
  by_cases h : to_snip.contains el = true
  · rw [if_pos h]
    have hexel : funcExists orig el = true := hsn el (contains_iff_mem.mp h)
    have hty : funcTy st.funcs el = funcTy orig el := by
      obtain ⟨hfuncs, _, _, _⟩ := hinv
      rw [hfuncs]
      exact funcTy_append_of_exists orig _ el hexel
    rw [hty]
    obtain ⟨hinv', hpre, hmem⟩ := getStub_spec orig next0 (funcTy orig el) st hinv
    exact ⟨hinv', hpre, Or.inr ⟨h, hmem⟩⟩
  · rw [if_neg h]
    rw [Bool.not_eq_true] at h
    exact ⟨hinv, cachePrefix_refl _, Or.inl ⟨h, rfl⟩⟩

end WasmSnip

namespace WasmSnip

theorem patchElems_spec (orig : List Func) (next0 : Nat) (to_snip : List FuncId)
    (els : List FuncId) : ∀ st : PatchState,
    PatchInv orig next0 st →
    (∀ x ∈ to_snip, funcExists orig x = true) →
    PatchInv orig next0 (patchElems to_snip st els).2 ∧
    cachePrefix st.cache (patchElems to_snip st els).2.cache ∧
    (∀ y ∈ els, to_snip.contains y = true →
      ∃ fid, (funcTy orig y, fid) ∈ (patchElems to_snip st els).2.cache) ∧
    (∀ cf, cachePrefix (patchElems to_snip st els).2.cache cf → (cacheKeys cf).Nodup →
      (patchElems to_snip st els).1 = els.map (patchSpecSlot cf orig to_snip)) := by
  induction els with
  | nil =>
    intro st hinv _
    exact ⟨hinv, cachePrefix_refl _, fun y hy => absurd hy (List.not_mem_nil y),
      fun _ _ _ => rfl⟩
  | cons el rest ih =>
    intro st hinv hsn
    obtain ⟨hinv1, hpre1, hdisj⟩ := patchElem_spec orig next0 to_snip st el hinv hsn
    obtain ⟨hinv2, hpre2, hcov2, hmap2⟩ := ih (patchElem to_snip st el).2 hinv1 hsn
    refine ⟨hinv2, cachePrefix_trans hpre1 hpre2, ?_, ?_⟩
    · intro y hy hc
      rcases List.mem_cons.mp hy with h1 | h1
      · subst h1
        rcases hdisj with ⟨hc', _⟩ | ⟨_, hmem⟩
        · exact absurd hc (by rw [hc']; exact Bool.false_ne_true)
        · exact ⟨(patchElem to_snip st y).1, mem_of_cachePrefix hpre2 hmem⟩
      · exact hcov2 y h1 hc
    · intro cf hcf hnd
      show (patchElem to_snip st el).1 ::
          (patchElems to_snip (patchElem to_snip st el).2 rest).1 =
        patchSpecSlot cf orig to_snip el :: rest.map (patchSpecSlot cf orig to_snip)
      congr 1
      · rcases hdisj with ⟨hc', hval⟩ | ⟨hc', hmem⟩
        · rw [hval]
          unfold patchSpecSlot
          rw [if_neg (by rw [hc']; exact Bool.false_ne_true)]
        · have hmem' := mem_of_cachePrefix (cachePrefix_trans hpre2 hcf) hmem
          have hlk := cacheLookup_of_mem_nodup hnd hmem'
          unfold patchSpecSlot
          rw [if_pos hc', hlk]
          rfl
      · exact hmap2 cf hcf hnd

theorem patchOptElems_spec (orig : List Func) (next0 : Nat) (to_snip : List FuncId)
    (els : List (Option FuncId)) : ∀ st : PatchState,
    PatchInv orig next0 st →
    (∀ x ∈ to_snip, funcExists orig x = true) →
    PatchInv orig next0 (patchOptElems to_snip st els).2 ∧
    cachePrefix st.cache (patchOptElems to_snip st els).2.cache ∧
    (∀ y, some y ∈ els → to_snip.contains y = true →
      ∃ fid, (funcTy orig y, fid) ∈ (patchOptElems to_snip st els).2.cache) ∧
    (∀ cf, cachePrefix (patchOptElems to_snip st els).2.cache cf → (cacheKeys cf).Nodup →
      (patchOptElems to_snip st els).1 =
        els.map (Option.map (patchSpecSlot cf orig to_snip))) := by
  induction els with
  | nil =>
    intro st hinv _
    exact ⟨hinv, cachePrefix_refl _, fun y hy => absurd hy (List.not_mem_nil _),
      fun _ _ _ => rfl⟩
  | cons hd rest ih =>
    intro st hinv hsn
    cases hd with
    | none =>
      obtain ⟨hinv2, hpre2, hcov2, hmap2⟩ := ih st hinv hsn
      refine ⟨hinv2, hpre2, ?_, ?_⟩
      · intro y hy hc
        rcases List.mem_cons.mp hy with h1 | h1
        · cases h1
        · exact hcov2 y h1 hc
      · intro cf hcf hnd
        show none :: (patchOptElems to_snip st rest).1 =
          Option.map (patchSpecSlot cf orig to_snip) none ::
            rest.map (Option.map (patchSpecSlot cf orig to_snip))
        congr 1
        exact hmap2 cf hcf hnd
    | some el =>
      obtain ⟨hinv1, hpre1, hdisj⟩ := patchElem_spec orig next0 to_snip st el hinv hsn
      obtain ⟨hinv2, hpre2, hcov2, hmap2⟩ := ih (patchElem to_snip st el).2 hinv1 hsn
      refine ⟨hinv2, cachePrefix_trans hpre1 hpre2, ?_, ?_⟩
      · intro y hy hc
        rcases List.mem_cons.mp hy with h1 | h1
        · have hyel : y = el := Option.some.inj h1
          subst hyel
          rcases hdisj with ⟨hc', _⟩ | ⟨_, hmem⟩
          · exact absurd hc (by rw [hc']; exact Bool.false_ne_true)
          · exact ⟨(patchElem to_snip st y).1, mem_of_cachePrefix hpre2 hmem⟩
        · exact hcov2 y h1 hc
      · intro cf hcf hnd
        show some (patchElem to_snip st el).1 ::
            (patchOptElems to_snip (patchElem to_snip st el).2 rest).1 =
          Option.map (patchSpecSlot cf orig to_snip) (some el) ::
            rest.map (Option.map (patchSpecSlot cf orig to_snip))
        congr 1
        · show some (patchElem to_snip st el).1 = some (patchSpecSlot cf orig to_snip el)
          congr 1
          rcases hdisj with ⟨hc', hval⟩ | ⟨hc', hmem⟩
          · rw [hval]
            unfold patchSpecSlot
            rw [if_neg (by rw [hc']; exact Bool.false_ne_true)]
          · have hmem' := mem_of_cachePrefix (cachePrefix_trans hpre2 hcf) hmem
            have hlk := cacheLookup_of_mem_nodup hnd hmem'
            unfold patchSpecSlot
            rw [if_pos hc', hlk]
            rfl
        · exact hmap2 cf hcf hnd

theorem patchRelElems_spec (orig : List Func) (next0 : Nat) (to_snip : List FuncId)
    (rels : List (Nat × List FuncId)) : ∀ st : PatchState,
    PatchInv orig next0 st →
    (∀ x ∈ to_snip, funcExists orig x = true) →
    PatchInv orig next0 (patchRelElems to_snip st rels).2 ∧
    cachePrefix st.cache (patchRelElems to_snip st rels).2.cache ∧
    (∀ y ∈ rels.flatMap Prod.snd, to_snip.contains y = true →
      ∃ fid, (funcTy orig y, fid) ∈ (patchRelElems to_snip st rels).2.cache) ∧
    (∀ cf, cachePrefix (patchRelElems to_snip st rels).2.cache cf → (cacheKeys cf).Nodup →
      (patchRelElems to_snip st rels).1 =
        rels.map (fun pr => (pr.1, pr.2.map (patchSpecSlot cf orig to_snip)))) := by
  induction rels with
  | nil =>
    intro st hinv _
    exact ⟨hinv, cachePrefix_refl _, fun y hy => absurd hy (List.not_mem_nil _),
      fun _ _ _ => rfl⟩
  | cons hd rest ih =>
    intro st hinv hsn
    cases hd with
    | mk off els =>
      obtain ⟨hinv1, hpre1, hcov1, hmap1⟩ := patchElems_spec orig next0 to_snip els st hinv hsn
      obtain ⟨hinv2, hpre2, hcov2, hmap2⟩ := ih (patchElems to_snip st els).2 hinv1 hsn
      refine ⟨hinv2, cachePrefix_trans hpre1 hpre2, ?_, ?_⟩
      · intro y hy hc
        rw [List.flatMap_cons] at hy
        rcases List.mem_append.mp hy with h1 | h1
        · obtain ⟨fid, hmem⟩ := hcov1 y h1 hc
          exact ⟨fid, mem_of_cachePrefix hpre2 hmem⟩
        · exact hcov2 y h1 hc
      · intro cf hcf hnd
        show ((off, (patchElems to_snip st els).1) ::
            (patchRelElems to_snip (patchElems to_snip st els).2 rest).1) =
          ((off, els.map (patchSpecSlot cf orig to_snip)) ::
            rest.map (fun pr => (pr.1, pr.2.map (patchSpecSlot cf orig to_snip))))
        congr 1
        · rw [hmap1 cf (cachePrefix_trans hpre2 hcf) hnd]
        · exact hmap2 cf hcf hnd

end WasmSnip

namespace WasmSnip

theorem patchTable_spec (orig : List Func) (next0 : Nat) (to_snip : List FuncId)
    (t : Table) (st : PatchState)
    (hinv : PatchInv orig next0 st)
    (hsn : ∀ x ∈ to_snip, funcExists orig x = true) :
    PatchInv orig next0 (patchTable to_snip st t).2 ∧
    cachePrefix st.cache (patchTable to_snip st t).2.cache ∧
    (∀ y ∈ tableRoots [t], to_snip.contains y = true →
      ∃ fid, (funcTy orig y, fid) ∈ (patchTable to_snip st t).2.cache) ∧
    (∀ cf, cachePrefix (patchTable to_snip st t).2.cache cf → (cacheKeys cf).Nodup →
      (patchTable to_snip st t).1 = mapTableSlots (patchSpecSlot cf orig to_snip) t) := by
  cases t with
  | mk tid kind =>
    cases kind with
    | otherKind c =>
      refine ⟨hinv, cachePrefix_refl _, ?_, ?_⟩
      · intro y hy
        exact absurd hy (by simp [tableRoots])
      · intro cf _ _
        rfl
    | function ft =>
      obtain ⟨hinv1, hpre1, hcov1, hmap1⟩ :=
        patchOptElems_spec orig next0 to_snip ft.elements st hinv hsn
      obtain ⟨hinv2, hpre2, hcov2, hmap2⟩ :=
        patchRelElems_spec orig next0 to_snip ft.relativeElements
          (patchOptElems to_snip st ft.elements).2 hinv1 hsn
      refine ⟨hinv2, cachePrefix_trans hpre1 hpre2, ?_, ?_⟩
      · intro y hy hc
        have hy' : y ∈ ft.elements.filterMap id ++ ft.relativeElements.flatMap Prod.snd := by
          simpa [tableRoots] using hy
        rcases List.mem_append.mp hy' with h1 | h1
        · have hsome : some y ∈ ft.elements := by
            obtain ⟨o, ho, hoy⟩ := List.mem_filterMap.mp h1
            have : o = some y := hoy
            rw [this] at ho
            exact ho
          obtain ⟨fid, hmem⟩ := hcov1 y hsome hc
          exact ⟨fid, mem_of_cachePrefix hpre2 hmem⟩
        · exact hcov2 y h1 hc
      · intro cf hcf hnd
        show (⟨tid, TableKind.function
            ⟨(patchOptElems to_snip st ft.elements).1,
             (patchRelElems to_snip (patchOptElems to_snip st ft.elements).2
               ft.relativeElements).1⟩⟩ : Table) =
          mapTableSlots (patchSpecSlot cf orig to_snip) ⟨tid, TableKind.function ft⟩
        unfold mapTableSlots
        rw [hmap1 cf (cachePrefix_trans hpre2 hcf) hnd, hmap2 cf hcf hnd]

theorem patchTables_spec (orig : List Func) (next0 : Nat) (to_snip : List FuncId)
    (ts : List Table) : ∀ st : PatchState,
    PatchInv orig next0 st →
    (∀ x ∈ to_snip, funcExists orig x = true) →
    PatchInv orig next0 (patchTables to_snip st ts).2 ∧
    cachePrefix st.cache (patchTables to_snip st ts).2.cache ∧
    (∀ y ∈ tableRoots ts, to_snip.contains y = true →
      ∃ fid, (funcTy orig y, fid) ∈ (patchTables to_snip st ts).2.cache) ∧
    (∀ cf, cachePrefix (patchTables to_snip st ts).2.cache cf → (cacheKeys cf).Nodup →
      (patchTables to_snip st ts).1 =
        ts.map (mapTableSlots (patchSpecSlot cf orig to_snip))) := by
  induction ts with
  | nil =>
    intro st hinv _
    exact ⟨hinv, cachePrefix_refl _, fun y hy => absurd hy (List.not_mem_nil _),
      fun _ _ _ => rfl⟩
  | cons t rest ih =>
    intro st hinv hsn
    obtain ⟨hinv1, hpre1, hcov1, hmap1⟩ := patchTable_spec orig next0 to_snip t st hinv hsn
    obtain ⟨hinv2, hpre2, hcov2, hmap2⟩ := ih (patchTable to_snip st t).2 hinv1 hsn
    refine ⟨hinv2, cachePrefix_trans hpre1 hpre2, ?_, ?_⟩
    · intro y hy hc
      rw [show tableRoots (t :: rest) = tableRoots [t] ++ tableRoots rest from by
        simp [tableRoots]] at hy
      rcases List.mem_append.mp hy with h1 | h1
      · obtain ⟨fid, hmem⟩ := hcov1 y h1 hc
        exact ⟨fid, mem_of_cachePrefix hpre2 hmem⟩
      · exact hcov2 y h1 hc
    · intro cf hcf hnd
      show (patchTable to_snip st t).1 ::
          (patchTables to_snip (patchTable to_snip st t).2 rest).1 =
        mapTableSlots (patchSpecSlot cf orig to_snip) t ::
          rest.map (mapTableSlots (patchSpecSlot cf orig to_snip))
      congr 1
      · exact hmap1 cf (cachePrefix_trans hpre2 hcf) hnd
      · exact hmap2 cf hcf hnd

theorem snip_table_elements_spec (m : Module) (to_snip : List FuncId)
    (hsn : ∀ x ∈ to_snip, funcExists m.funcs x = true)
    (_hb : ∀ g ∈ m.funcs, g.id < m.nextFuncId) :
    ∃ assign : List (TypeId × FuncId),
      (cacheKeys assign).Nodup ∧
      (∀ pr ∈ assign, m.nextFuncId ≤ pr.2) ∧
      (snip_table_elements m to_snip).funcs = m.funcs ++ assign.map mkStubFunc ∧
      (∀ y ∈ tableRoots m.tables, to_snip.contains y = true →
        ∃ fid, cacheLookup assign (funcTy m.funcs y) = some fid) ∧
      (snip_table_elements m to_snip).tables =
        m.tables.map (mapTableSlots (patchSpecSlot assign m.funcs to_snip)) := by
  have hinv0 : PatchInv m.funcs m.nextFuncId
      { cache := [], funcs := m.funcs, nextId := m.nextFuncId } := by
    refine ⟨by simp, List.nodup_nil, ?_, le_rfl⟩
    intro pr hpr
    cases hpr
  obtain ⟨hinvf, _, hcov, hmap⟩ :=
    patchTables_spec m.funcs m.nextFuncId to_snip m.tables
      { cache := [], funcs := m.funcs, nextId := m.nextFuncId } hinv0 hsn
  obtain ⟨hfuncs, hnd, hbounds, _⟩ := hinvf
  refine ⟨(patchTables to_snip
      { cache := [], funcs := m.funcs, nextId := m.nextFuncId } m.tables).2.cache,
    hnd, ?_, ?_, ?_, ?_⟩
  · intro pr hpr
    exact (hbounds pr hpr).1
  · exact hfuncs
  · intro y hy hc
    obtain ⟨fid, hmem⟩ := hcov y hy hc
    exact ⟨fid, cacheLookup_of_mem_nodup hnd hmem⟩
  · exact hmap _ (cachePrefix_refl _) hnd

end WasmSnip

namespace WasmSnip

theorem filterMap_id_map_optmap (g : FuncId → FuncId) (l : List (Option FuncId)) :
    (l.map (Option.map g)).filterMap id = (l.filterMap id).map g := by
  induction l with
  | nil => rfl
  | cons o rest ih =>
    cases o with
    | none => simpa using ih
    | some y => simp [ih]

theorem flatMap_snd_map (g : FuncId → FuncId) (l : List (Nat × List FuncId)) :
    (l.map (fun pr => (pr.1, pr.2.map g))).flatMap Prod.snd =
      (l.flatMap Prod.snd).map g := by
  induction l with
  | nil => rfl
  | cons pr rest ih =>
    cases pr with
    | mk a b => simp [ih]

theorem tableRoots_single_map (g : FuncId → FuncId) (t : Table) :
    tableRoots [mapTableSlots g t] = (tableRoots [t]).map g := by
  cases t with
  | mk tid kind =>
    cases kind with
    | otherKind c => rfl
    | function ft =>
      have h1 : tableRoots [mapTableSlots g ⟨tid, TableKind.function ft⟩] =
          (ft.elements.map (Option.map g)).filterMap id ++
            (ft.relativeElements.map (fun pr => (pr.1, pr.2.map g))).flatMap Prod.snd ++ [] :=
        rfl
      have h2 : tableRoots [(⟨tid, TableKind.function ft⟩ : Table)] =
          ft.elements.filterMap id ++ ft.relativeElements.flatMap Prod.snd ++ [] := rfl
      rw [h1, h2, List.append_nil, List.append_nil, List.map_append,
        filterMap_id_map_optmap, flatMap_snd_map]

theorem tableRoots_map (g : FuncId → FuncId) (ts : List Table) :
    tableRoots (ts.map (mapTableSlots g)) = (tableRoots ts).map g := by
  induction ts with
  | nil => rfl
  | cons t rest ih =>
    rw [List.map_cons]
    rw [show tableRoots (mapTableSlots g t :: rest.map (mapTableSlots g)) =
        tableRoots [mapTableSlots g t] ++ tableRoots (rest.map (mapTableSlots g)) from by
      simp [tableRoots]]
    rw [show tableRoots (t :: rest) = tableRoots [t] ++ tableRoots rest from by
      simp [tableRoots]]
    rw [List.map_append, ih, tableRoots_single_map]

/-- C5: after the table patcher runs, no slot of any function table (dense
element lists and offset-based relative segments alike) references a function
in the snip set; every rewritten slot now references a synthesized stub whose
type signature equals the original callee's type, and every other slot is
untouched, so every slot's function still matches the table's declared
function element type. -/
theorem claim_C5_tables_type_safe (m : Module) (to_snip : List FuncId)
    (hsn : to_snip.all (funcExists m.funcs) = true)
    (hb : idsBounded m = true) :
    (∀ x ∈ tableRoots (snip_table_elements m to_snip).tables,
      to_snip.contains x = false) ∧
    (∃ g, (snip_table_elements m to_snip).tables = m.tables.map (mapTableSlots g) ∧
      ∀ y ∈ tableRoots m.tables,
        (to_snip.contains y = false → g y = y) ∧
        (to_snip.contains y = true →
          IsStubFor (snip_table_elements m to_snip).funcs (funcTy m.funcs y) (g y))) := by
  have hsn' : ∀ x ∈ to_snip, funcExists m.funcs x = true := List.all_eq_true.mp hsn
  have hb' : ∀ g ∈ m.funcs, g.id < m.nextFuncId := fun g hg =>
    of_decide_eq_true (List.all_eq_true.mp hb g hg)
  obtain ⟨assign, hnd, hlb, hfuncs, hcov, htabs⟩ :=
    snip_table_elements_spec m to_snip hsn' hb'
  have hsniplow : ∀ x ∈ to_snip, x < m.nextFuncId := by
    intro x hx
    obtain ⟨f, hf, hfx⟩ := List.any_eq_true.mp (hsn' x hx)
    have hfid : f.id = x := by simpa using hfx
    rw [← hfid]
    exact hb' f hf
  have hkey : ∀ y ∈ tableRoots m.tables,
      (to_snip.contains y = false → patchSpecSlot assign m.funcs to_snip y = y) ∧
      (to_snip.contains y = true →
        IsStubFor (snip_table_elements m to_snip).funcs (funcTy m.funcs y)
          (patchSpecSlot assign m.funcs to_snip y)) := by
    intro y hy
    constructor
    · intro hc
      unfold patchSpecSlot
      rw [if_neg (by rw [hc]; exact Bool.false_ne_true)]
    · intro hc
      obtain ⟨fid, hlk⟩ := hcov y hy hc
      unfold patchSpecSlot
      rw [if_pos hc, hlk]
      refine ⟨mkStubFunc (funcTy m.funcs y, fid), ?_, rfl, rfl, rfl, rfl⟩
      rw [hfuncs]
      exact List.mem_append.mpr (Or.inr (List.mem_map.mpr ⟨_, cacheLookup_mem hlk, rfl⟩))
  refine ⟨?_, ⟨patchSpecSlot assign m.funcs to_snip, htabs, hkey⟩⟩
  intro x hx
  rw [htabs, tableRoots_map] at hx
  obtain ⟨y, hy, hxy⟩ := List.mem_map.mp hx
  by_cases hc : to_snip.contains y = true
  · obtain ⟨fid, hlk⟩ := hcov y hy hc
    have hx2 : x = fid := by
      rw [← hxy]
      unfold patchSpecSlot
      rw [if_pos hc, hlk]
      rfl
    have hge : m.nextFuncId ≤ fid := hlb _ (cacheLookup_mem hlk)
    rw [hx2]
    cases hcx : to_snip.contains fid
    · rfl
    · exfalso
      have h1 : fid < m.nextFuncId := hsniplow fid (contains_iff_mem.mp hcx)
      exact absurd h1 (Nat.not_lt.mpr hge)
  · rw [Bool.not_eq_true] at hc
    have hx2 : x = y := by
      rw [← hxy]
      unfold patchSpecSlot
      rw [if_neg (by rw [hc]; exact Bool.false_ne_true)]
    rw [hx2]
    exact hc

theorem claim_C5_tables_type_safe_witness :
    (∀ x ∈ tableRoots (snip_table_elements mC5 [0, 1]).tables,
      ([0, 1] : List FuncId).contains x = false) ∧
    (∃ g, (snip_table_elements mC5 [0, 1]).tables = mC5.tables.map (mapTableSlots g) ∧
      ∀ y ∈ tableRoots mC5.tables,
        (([0, 1] : List FuncId).contains y = false → g y = y) ∧
        (([0, 1] : List FuncId).contains y = true →
          IsStubFor (snip_table_elements mC5 [0, 1]).funcs (funcTy mC5.funcs y) (g y))) :=
  claim_C5_tables_type_safe mC5 [0, 1] (by decide) (by decide)

/-- C7: the table patcher synthesizes at most one stub per distinct type.
The functions appended to the arena are exactly one stub per cache entry and
the cached types are pairwise distinct; each stub is unnamed, carries the
cached type as its signature, and its body is exactly one trap instruction
(`mkStubFunc`); and every rewritten slot (across all tables, dense or
relative) is a function of its old callee's type alone, so any two snipped
callees of equal type are rewritten to the very same stub handle. -/
theorem claim_C7_stub_memoization (m : Module) (to_snip : List FuncId)
    (hsn : to_snip.all (funcExists m.funcs) = true)
    (hb : idsBounded m = true) :
    ∃ assign : List (TypeId × FuncId),
      (cacheKeys assign).Nodup ∧
      (snip_table_elements m to_snip).funcs = m.funcs ++ assign.map mkStubFunc ∧
      (snip_table_elements m to_snip).tables =
        m.tables.map (mapTableSlots (patchSpecSlot assign m.funcs to_snip)) := by
  have hsn' : ∀ x ∈ to_snip, funcExists m.funcs x = true := List.all_eq_true.mp hsn
  have hb' : ∀ g ∈ m.funcs, g.id < m.nextFuncId := fun g hg =>
    of_decide_eq_true (List.all_eq_true.mp hb g hg)
  obtain ⟨assign, hnd, _, hfuncs, _, htabs⟩ := snip_table_elements_spec m to_snip hsn' hb'
  exact ⟨assign, hnd, hfuncs, htabs⟩

theorem claim_C7_stub_memoization_witness :
    ∃ assign : List (TypeId × FuncId),
      (cacheKeys assign).Nodup ∧
      (snip_table_elements mC5 [0, 1]).funcs = mC5.funcs ++ assign.map mkStubFunc ∧
      (snip_table_elements mC5 [0, 1]).tables =
        mC5.tables.map (mapTableSlots (patchSpecSlot assign mC5.funcs [0, 1])) :=
  claim_C7_stub_memoization mC5 [0, 1] (by decide) (by decide)

end WasmSnip

/-! ## Schedule independence (C10) -/

namespace WasmSnip

theorem contains_eq_of_perm {α : Type} [BEq α] [LawfulBEq α] {l₁ l₂ : List α}
    (h : l₁.Perm l₂) (x : α) : l₁.contains x = l₂.contains x := by
  cases hc : l₂.contains x
  · cases hc1 : l₁.contains x
    · rfl
    · exfalso
      have hm : x ∈ l₂ := (h.mem_iff).mp (contains_iff_mem.mp hc1)
      rw [contains_iff_mem.mpr hm] at hc
      cases hc
  · exact contains_iff_mem.mpr ((h.mem_iff).mpr (contains_iff_mem.mp hc))

mutual

theorem rewriteInstr_congr (s₁ s₂ : List FuncId) (hc : ∀ x, s₁.contains x = s₂.contains x) :
    ∀ i, rewriteInstr s₁ i = rewriteInstr s₂ i
  | Instr.call f => by
    have e1 : rewriteInstr s₁ (Instr.call f) =
        if s₁.contains f then Instr.unreachable else Instr.call f := rfl
    have e2 : rewriteInstr s₂ (Instr.call f) =
        if s₂.contains f then Instr.unreachable else Instr.call f := rfl
    rw [e1, e2, hc f]
  | Instr.callIndirect _ => rfl
  | Instr.unreachable => rfl
  | Instr.other _ => rfl
  | Instr.block b => congrArg Instr.block (rewriteSeq_congr s₁ s₂ hc b)

theorem rewriteSeq_congr (s₁ s₂ : List FuncId) (hc : ∀ x, s₁.contains x = s₂.contains x) :
    ∀ l, rewriteSeq s₁ l = rewriteSeq s₂ l
  | [] => rfl
  | i :: r => by
    rw [show rewriteSeq s₁ (i :: r) = rewriteInstr s₁ i :: rewriteSeq s₁ r from rfl,
      show rewriteSeq s₂ (i :: r) = rewriteInstr s₂ i :: rewriteSeq s₂ r from rfl,
      rewriteInstr_congr s₁ s₂ hc i, rewriteSeq_congr s₁ s₂ hc r]

end

theorem rewriteFunc_congr (s₁ s₂ : List FuncId) (hc : ∀ x, s₁.contains x = s₂.contains x)
    (f : Func) : rewriteFunc s₁ f = rewriteFunc s₂ f := by
  unfold rewriteFunc
  rw [hc f.id]
  by_cases h : s₂.contains f.id = true
  · rw [if_pos h, if_pos h]
  · rw [if_neg h, if_neg h]
    cases hb : f.body with
    | none => rfl
    | some b =>
      show ({ f with body := some (rewriteSeq s₁ b) } : Func) =
        { f with body := some (rewriteSeq s₂ b) }
      rw [rewriteSeq_congr s₁ s₂ hc b]

theorem replace_calls_congr (m : Module) (s₁ s₂ : List FuncId)
    (hc : ∀ x, s₁.contains x = s₂.contains x) :
    replace_calls_with_unreachable m s₁ = replace_calls_with_unreachable m s₂ := by
  unfold replace_calls_with_unreachable
  rw [List.map_congr_left (fun f _ => rewriteFunc_congr s₁ s₂ hc f)]

theorem unexport_congr (m : Module) (s₁ s₂ : List FuncId)
    (hc : ∀ x, s₁.contains x = s₂.contains x) :
    unexport_snipped_functions m s₁ = unexport_snipped_functions m s₂ := by
  have hf : m.exports.filter (fun e =>
      match e.item with
      | ExportItem.function f => !(s₁.contains f)
      | _ => true) =
    m.exports.filter (fun e =>
      match e.item with
      | ExportItem.function f => !(s₂.contains f)
      | _ => true) := by
    apply List.filter_congr
    intro e _
    cases he : e.item with
    | function f =>
      show (!(s₁.contains f)) = (!(s₂.contains f))
      rw [hc f]
    | otherItem c => rfl
  unfold unexport_snipped_functions
  rw [hf]

theorem unimport_congr (m : Module) (s₁ s₂ : List FuncId)
    (hc : ∀ x, s₁.contains x = s₂.contains x) :
    unimport_snipped_functions m s₁ = unimport_snipped_functions m s₂ := by
  have hf : m.imports.filter (fun i =>
      match i.kind with
      | ImportKind.function f => !(s₁.contains f)
      | _ => true) =
    m.imports.filter (fun i =>
      match i.kind with
      | ImportKind.function f => !(s₂.contains f)
      | _ => true) := by
    apply List.filter_congr
    intro i _
    cases hk : i.kind with
    | function f =>
      show (!(s₁.contains f)) = (!(s₂.contains f))
      rw [hc f]
    | otherItem c => rfl
  unfold unimport_snipped_functions
  rw [hf]

theorem delete_functions_congr (m : Module) (s₁ s₂ : List FuncId)
    (hc : ∀ x, s₁.contains x = s₂.contains x) :
    delete_functions_to_snip m s₁ = delete_functions_to_snip m s₂ := by
  unfold delete_functions_to_snip
  rw [List.filter_congr (fun f _ => by rw [hc f.id])]

theorem delete_exports_congr (m : Module) {l₁ l₂ : List ExportId}
    (h : ∀ x, l₁.contains x = l₂.contains x) :
    delete_exports m l₁ = delete_exports m l₂ := by
  unfold delete_exports
  rw [List.filter_congr (fun e _ => by rw [h e.id])]

theorem patchElem_congr (s₁ s₂ : List FuncId) (hc : ∀ x, s₁.contains x = s₂.contains x)
    (st : PatchState) (el : FuncId) : patchElem s₁ st el = patchElem s₂ st el := by
  unfold patchElem
  rw [hc el]

theorem patchOptElems_congr (s₁ s₂ : List FuncId) (hc : ∀ x, s₁.contains x = s₂.contains x)
    (els : List (Option FuncId)) : ∀ st, patchOptElems s₁ st els = patchOptElems s₂ st els := by
  induction els with
  | nil => intro st; rfl
  | cons hd rest ih =>
    intro st
    cases hd with
    | none => simp only [patchOptElems, ih]
    | some el => simp only [patchOptElems, patchElem_congr s₁ s₂ hc st el, ih]

theorem patchElems_congr (s₁ s₂ : List FuncId) (hc : ∀ x, s₁.contains x = s₂.contains x)
    (els : List FuncId) : ∀ st, patchElems s₁ st els = patchElems s₂ st els := by
  induction els with
  | nil => intro st; rfl
  | cons el rest ih =>
    intro st
    simp only [patchElems, patchElem_congr s₁ s₂ hc st el, ih]

theorem patchRelElems_congr (s₁ s₂ : List FuncId) (hc : ∀ x, s₁.contains x = s₂.contains x)
    (rels : List (Nat × List FuncId)) : ∀ st, patchRelElems s₁ st rels = patchRelElems s₂ st rels := by
  induction rels with
  | nil => intro st; rfl
  | cons hd rest ih =>
    intro st
    cases hd with
    | mk off els => simp only [patchRelElems, patchElems_congr s₁ s₂ hc els, ih]

theorem patchTable_congr (s₁ s₂ : List FuncId) (hc : ∀ x, s₁.contains x = s₂.contains x)
    (st : PatchState) (t : Table) : patchTable s₁ st t = patchTable s₂ st t := by
  cases t with
  | mk tid kind =>
    cases kind with
    | function ft =>
      simp only [patchTable, patchOptElems_congr s₁ s₂ hc ft.elements,
        patchRelElems_congr s₁ s₂ hc ft.relativeElements]
    | otherKind c => rfl

theorem patchTables_congr (s₁ s₂ : List FuncId) (hc : ∀ x, s₁.contains x = s₂.contains x)
    (ts : List Table) : ∀ st, patchTables s₁ st ts = patchTables s₂ st ts := by
  induction ts with
  | nil => intro st; rfl
  | cons t rest ih =>
    intro st
    simp only [patchTables, patchTable_congr s₁ s₂ hc st t, ih]

theorem snip_table_elements_congr (m : Module) (s₁ s₂ : List FuncId)
    (hc : ∀ x, s₁.contains x = s₂.contains x) :
    snip_table_elements m s₁ = snip_table_elements m s₂ := by
  show (match patchTables s₁ { cache := [], funcs := m.funcs, nextId := m.nextFuncId } m.tables with
    | (ts, st) => { m with tables := ts, funcs := st.funcs, nextFuncId := st.nextId }) =
    (match patchTables s₂ { cache := [], funcs := m.funcs, nextId := m.nextFuncId } m.tables with
    | (ts, st) => { m with tables := ts, funcs := st.funcs, nextFuncId := st.nextId })
  rw [patchTables_congr s₁ s₂ hc m.tables]

theorem delete_exports_sched_eq (order : List ExportId) : ∀ m : Module,
    delete_exports_sched m order = delete_exports m order := by
  induction order with
  | nil =>
    intro m
    show m = delete_exports m []
    rw [delete_exports_nil]
  | cons i rest ih =>
    intro m
    show delete_exports_sched (deleteExportOne m i) rest = delete_exports m (i :: rest)
    rw [ih]
    have hf : (m.exports.filter (fun e => !(e.id == i))).filter
        (fun e => !(rest.contains e.id)) =
        m.exports.filter (fun e => !((i :: rest).contains e.id)) := by
      rw [List.filter_filter]
      apply List.filter_congr
      intro e _
      rw [List.contains_cons, Bool.not_or, Bool.and_comm]
    show ({ m with exports := (m.exports.filter (fun e => !(e.id == i))).filter (fun e => !(rest.contains e.id)) } : Module) = { m with exports := m.exports.filter (fun e => !((i :: rest).contains e.id)) }
    rw [hf]

theorem delete_functions_sched_eq (order : List FuncId) : ∀ m : Module,
    delete_functions_sched m order = delete_functions_to_snip m order := by
  induction order with
  | nil =>
    intro m
    show m = delete_functions_to_snip m []
    rw [delete_functions_nil]
  | cons i rest ih =>
    intro m
    show delete_functions_sched (deleteFuncOne m i) rest = delete_functions_to_snip m (i :: rest)
    rw [ih]
    have hf : (m.funcs.filter (fun f => !(f.id == i))).filter
        (fun f => !(rest.contains f.id)) =
        m.funcs.filter (fun f => !((i :: rest).contains f.id)) := by
      rw [List.filter_filter]
      apply List.filter_congr
      intro f _
      rw [List.contains_cons, Bool.not_or, Bool.and_comm]
    show ({ m with funcs := (m.funcs.filter (fun f => !(f.id == i))).filter (fun f => !(rest.contains f.id)) } : Module) = { m with funcs := m.funcs.filter (fun f => !((i :: rest).contains f.id)) }
    rw [hf]

theorem snipM1_funcs_eq (m : Module) (opts : Options) : (snipM1 m opts).funcs = m.funcs := by
  unfold snipM1
  cases opts.skip_producers_section <;> rfl

theorem snipM1_exports_eq (m : Module) (opts : Options) :
    (snipM1 m opts).exports = m.exports := by
  unfold snipM1
  cases opts.skip_producers_section <;> rfl

end WasmSnip

namespace WasmSnip

/-- C10: `snip` is deterministic despite its internal parallelism.  Whatever
order the parallel selection traverses the arena in (any permutation `σ` of
the function list), and whatever iteration orders the hash sets hand to the
export deletion (`oE`) and the function deletion (`oF`), the run produces
exactly the canonical sequential result, module and error alike; hence any
two runs on structurally equal inputs compute the same snip set, perform the
same call-site rewrites, synthesize the same stubs and return structurally
equal modules (or the same error). -/
theorem claim_C10_schedule_independent (eng : RegexEngine) (m : Module) (opts : Options)
    (σ : List Func) (oE : List ExportId) (oF : List FuncId)
    (hσ : σ.Perm m.funcs)
    (hE : oE.Perm (find_exports_to_delete eng m opts.kept_exports ⟨opts.kept_export_patterns⟩))
    (hF : oF.Perm (find_functions_to_snip_par eng σ opts.functions ⟨effectivePatterns opts⟩)) :
    snipSched eng m opts σ oE oF = snip eng m opts := by
  by_cases h1 : opts.kept_export_patterns.all eng.compiles = true
  · by_cases h2 : (effectivePatterns opts).all eng.compiles = true
    · have ha : RegexSet.new eng opts.kept_export_patterns =
          Except.ok ⟨opts.kept_export_patterns⟩ := by
        unfold RegexSet.new
        rw [if_pos h1]
      have hb : RegexSet.new eng (effectivePatterns opts) =
          Except.ok ⟨effectivePatterns opts⟩ := by
        unfold RegexSet.new
        rw [if_pos h2]
      rw [snip_success_eq eng m opts h1 h2]
      have hsched : snipSched eng m opts σ oE oF =
          (gc_run (delete_functions_sched
            (snip_table_elements
              (unimport_snipped_functions
                (unexport_snipped_functions
                  (replace_calls_with_unreachable
                    (delete_exports_sched (snipM1 m opts) oE)
                    (find_functions_to_snip_par eng σ opts.functions
                      ⟨effectivePatterns opts⟩))
                  (find_functions_to_snip_par eng σ opts.functions
                    ⟨effectivePatterns opts⟩))
                (find_functions_to_snip_par eng σ opts.functions ⟨effectivePatterns opts⟩))
              (find_functions_to_snip_par eng σ opts.functions ⟨effectivePatterns opts⟩))
            oF), none) := by
        unfold snipSched build_regex_set snipM1
        rw [ha, hb]
      rw [hsched]
      have hSeq : snipToSnip eng (snipM1 m opts) opts =
          find_functions_to_snip_par eng m.funcs opts.functions ⟨effectivePatterns opts⟩ := by
        unfold snipToSnip find_functions_to_snip find_functions_to_snip_par
        rw [snipM1_funcs_eq]
      have hS : ∀ x, (find_functions_to_snip_par eng σ opts.functions
          ⟨effectivePatterns opts⟩).contains x =
          (snipToSnip eng (snipM1 m opts) opts).contains x := by
        intro x
        rw [hSeq]
        exact contains_eq_of_perm (hσ.filterMap _) x
      have hE' : ∀ x, oE.contains x =
          (snipExportsToDelete eng (snipM1 m opts) opts).contains x := by
        intro x
        have heq : snipExportsToDelete eng (snipM1 m opts) opts =
            find_exports_to_delete eng m opts.kept_exports ⟨opts.kept_export_patterns⟩ := by
          unfold snipExportsToDelete find_exports_to_delete
          rw [snipM1_exports_eq]
        rw [heq]
        exact contains_eq_of_perm hE x
      have hF' : ∀ x, oF.contains x = (snipToSnip eng (snipM1 m opts) opts).contains x :=
        fun x => (contains_eq_of_perm hF x).trans (hS x)
      rw [delete_exports_sched_eq, delete_exports_congr _ hE',
        replace_calls_congr _ _ _ hS, unexport_congr _ _ _ hS, unimport_congr _ _ _ hS,
        snip_table_elements_congr _ _ _ hS, delete_functions_sched_eq,
        delete_functions_congr _ _ _ hF']
      rfl
    · have hb : RegexSet.new eng (effectivePatterns opts) =
          Except.error SnipError.patternCompileError := by
        unfold RegexSet.new
        rw [if_neg h2]
      have ha : RegexSet.new eng opts.kept_export_patterns =
          Except.ok ⟨opts.kept_export_patterns⟩ := by
        unfold RegexSet.new
        rw [if_pos h1]
      unfold snipSched snip build_regex_set
      rw [ha, hb]
  · have ha : RegexSet.new eng opts.kept_export_patterns =
        Except.error SnipError.patternCompileError := by
      unfold RegexSet.new
      rw [if_neg h1]
    unfold snipSched snip
    rw [ha]

theorem claim_C10_schedule_independent_witness :
    snipSched engLit mC10 optsC10 mC10.funcs.reverse [1, 0] [0, 1] =
      snip engLit mC10 optsC10 :=
  claim_C10_schedule_independent engLit mC10 optsC10 mC10.funcs.reverse [1, 0] [0, 1]
    (mC10.funcs.reverse_perm) (by decide) (by decide)

end WasmSnip
